import Mathlib

/-!
Verification of the meta_genie literature-screening pipeline.

This file shallowly embeds the rule-based keyword matcher
(`rule_based_filter.py`), the highlighter (`streamlit_keyword_review.py`)
and the LLM secondary filter (`llm_secondary_filter.py`) as executable
Lean functions over `List Char` texts, and proves the specification
claims about them.

Python strings are modelled as `List Char`; `str.lower()` is modelled for
the ASCII range (`pyToLower`); regular expressions of the fragment used by
the code (`\b`, `\w*`, `\s+`, literal characters, case-insensitive) are
given a small backtracking matcher (`reMatch`) with Python `finditer`
scanning semantics (`reFinditer`).
-/

/-- Characters of a Lean string literal, used to write embedded Python
string constants. -/
def str (s : String) : List Char := s.data

/-- The 26 ASCII uppercase/lowercase letter pairs. -/
def asciiCasePairs : List (Char × Char) :=
  [('A', 'a'), ('B', 'b'), ('C', 'c'), ('D', 'd'), ('E', 'e'), ('F', 'f'),
   ('G', 'g'), ('H', 'h'), ('I', 'i'), ('J', 'j'), ('K', 'k'), ('L', 'l'),
   ('M', 'm'), ('N', 'n'), ('O', 'o'), ('P', 'p'), ('Q', 'q'), ('R', 'r'),
   ('S', 's'), ('T', 't'), ('U', 'u'), ('V', 'v'), ('W', 'w'), ('X', 'x'),
   ('Y', 'y'), ('Z', 'z')]

/-- Lookup of a character in a case table. -/
def lowerOf : List (Char × Char) → Char → Char
  | [], c => c
  | p :: ps, c => if c = p.1 then p.2 else lowerOf ps c

/-- Python `str.lower()` on a character (ASCII range: `A`-`Z` map to
`a`-`z`, other characters unchanged). -/
def pyToLower (c : Char) : Char := lowerOf asciiCasePairs c

/-- Python `str.lower()` on a string. -/
def lowerStr (s : List Char) : List Char := s.map pyToLower

/-- Case-insensitive character comparison, as used by `re.IGNORECASE`. -/
def charEqCI (c d : Char) : Bool := pyToLower c == pyToLower d

/-- A regex word character (`\w`): alphanumeric or underscore. -/
def isWordChar (c : Char) : Bool := c.isAlphanum || c == '_'

/-- A Python whitespace character (`\s` / `str.isspace` on ASCII). -/
def isPySpace (c : Char) : Bool :=
  c == ' ' || c == '\t' || c == '\n' || c == '\r' || c == '\x0b' || c == '\x0c'

/-- Split a string at each character satisfying `p` (single-character
separators, empty pieces kept), accumulator-based. -/
def splitEvery (p : Char → Bool) : List Char → List Char → List (List Char)
  | [], acc => [acc.reverse]
  | c :: cs, acc =>
    if p c then acc.reverse :: splitEvery p cs [] else splitEvery p cs (c :: acc)

/-- Drop empty pieces that are not the final piece (merging runs of
adjacent separators, as `re.split` with a `+`-quantified class does). -/
def dropInternalEmpty : List (List Char) → List (List Char)
  | [] => []
  | [p] => [p]
  | p :: ps => if p.isEmpty then dropInternalEmpty ps else p :: dropInternalEmpty ps

/-- Sentence delimiter characters of `re.split(r'[.!?]+', text)`. -/
def isSentenceDelim (c : Char) : Bool := c == '.' || c == '!' || c == '?'

/-- `re.split(r'[.!?]+', text)`: split on runs of sentence delimiters. -/
def splitSentences (t : List Char) : List (List Char) :=
  match splitEvery isSentenceDelim t [] with
  | [] => []
  | p :: ps => p :: dropInternalEmpty ps

/-- Python `str.split()` tokens: pieces split on whitespace, empties
dropped. -/
def pyTokens (s : List Char) : List (List Char) :=
  (splitEvery isPySpace s []).filter (fun p => !p.isEmpty)

/-- Python `str.strip()`: remove leading and trailing whitespace. -/
def pyStrip (s : List Char) : List Char :=
  ((s.dropWhile isPySpace).reverse.dropWhile isPySpace).reverse

/-- Literal (case-sensitive) match of a pattern against the front of a
string. -/
def litsMatch : List Char → List Char → Bool
  | [], _ => true
  | _ :: _, [] => false
  | c :: cs, d :: ds => c == d && litsMatch cs ds

/-- The pattern `k` occurs verbatim in `t` at offset `i`. -/
def matchAt (t k : List Char) (i : Nat) : Bool := litsMatch k (t.drop i)

/-- Python `k in t` substring containment. -/
def containsSub (t k : List Char) : Bool :=
  (List.range (t.length + 1)).any (fun i => matchAt t k i)

/-- Whether position `j` of `t` holds a word character (`false` out of
range). -/
def wordCharAt (t : List Char) (j : Nat) : Bool :=
  match t.get? j with
  | some c => isWordChar c
  | none => false

/-- Regex word boundary `\b` at position `i` of `t`: word-character-ness
differs across the position. -/
def boundaryAt (t : List Char) (i : Nat) : Bool :=
  (if i = 0 then false else wordCharAt t (i - 1)) != wordCharAt t i

/-- `re.search(r'\b' + re.escape(k) + r'\b', t)` for a literal `k`:
some occurrence of `k` in `t` flanked by word boundaries. -/
def hasBoundedMatch (t k : List Char) : Bool :=
  (List.range (t.length + 1)).any
    (fun i => matchAt t k i && boundaryAt t i && boundaryAt t (i + k.length))

/-- Whether a keyword matches a (lower-cased) text under
`find_keywords_in_text`: single-token keywords use word-boundary
matching, otherwise plain substring containment. -/
def kwMatches (textLower kw : List Char) : Bool :=
  if (pyTokens kw).length == 1 then hasBoundedMatch textLower (lowerStr kw)
  else containsSub textLower (lowerStr kw)

/-- The first sentence satisfying `pred`, stripped — the sentence-search
loop of `find_keywords_in_text`. -/
def firstSentence (sentences : List (List Char)) (pred : List Char → Bool) :
    List (List Char) :=
  match sentences.find? pred with
  | some s => [pyStrip s]
  | none => []

/-- Keyword loop of `find_keywords_in_text` over a fixed lowered text and
sentence list. -/
def findKeywordsLoop (textLower : List Char) (sentences : List (List Char)) :
    List (List Char) → List (List Char) × List (List Char)
  | [] => ([], [])
  | kw :: rest =>
    let acc := findKeywordsLoop textLower sentences rest
    if kwMatches textLower kw then
      (kw :: acc.1,
        firstSentence sentences (fun s => kwMatches (lowerStr s) kw) ++ acc.2)
    else acc

/-- `RuleBasedKeywordFilter.find_keywords_in_text`: exact word matching of
literal keywords, returning matched keywords and one example sentence
each. -/
def find_keywords_in_text (text : List Char) (keywords : List (List Char)) :
    List (List Char) × List (List Char) :=
  if text.isEmpty then ([], [])
  else findKeywordsLoop (lowerStr text) (splitSentences text) keywords

/-- The word-bounded case-insensitive occurrence described by the spec: a
decomposition of the lowered text around the lowered keyword whose seams
are word boundaries. -/
def lastIsWord (xs : List Char) : Bool :=
  match xs.getLast? with
  | some c => isWordChar c
  | none => false

/-- Whether a string starts with a word character. -/
def headIsWord (xs : List Char) : Bool :=
  match xs.head? with
  | some c => isWordChar c
  | none => false

/-- A word boundary at the seam between `xs` and `ys`. -/
def seamBoundary (xs ys : List Char) : Bool := lastIsWord xs != headIsWord ys

/-- Spec-level statement: `k` occurs in `t` bounded by word boundaries. -/
def SpecBoundedOccurrence (t k : List Char) : Prop :=
  ∃ pre post, t = pre ++ k ++ post ∧
    seamBoundary pre (k ++ post) = true ∧ seamBoundary (pre ++ k) post = true

/-! ### A small regex engine for the fragment used by the repository

The patterns occurring in the code are built from literal characters,
`\b` (word boundary), `\w*` (greedy run of word characters) and `\s+`
(greedy run of at least one whitespace character), matched
case-insensitively.  `reMatch` is the anchored backtracking matcher
(greedy quantifiers, longest attempt first) and `reFinditer` the
left-to-right non-overlapping scan of Python `re.finditer`. -/

/-- Tokens of the regex fragment. -/
inductive RTok where
  | lit (c : Char)
  | wstar
  | splus
  | bdry
deriving DecidableEq

/-- Parse a pattern string of the fragment (`\b`, `\w*`, `\s+`, escapes,
literal characters) into tokens. -/
def parseRegex : List Char → List RTok
  | [] => []
  | '\\' :: 'b' :: rest => RTok.bdry :: parseRegex rest
  | '\\' :: 'w' :: '*' :: rest => RTok.wstar :: parseRegex rest
  | '\\' :: 's' :: '+' :: rest => RTok.splus :: parseRegex rest
  | '\\' :: c :: rest => RTok.lit c :: parseRegex rest
  | c :: rest => RTok.lit c :: parseRegex rest

/-- Length of the run of characters satisfying `p` at the front of a
list. -/
def runLen (p : Char → Bool) : List Char → Nat
  | [] => 0
  | c :: cs => if p c then runLen p cs + 1 else 0

/-- Length of the run of characters satisfying `p` starting at position
`i` of `t`. -/
def runFrom (p : Char → Bool) (t : List Char) (i : Nat) : Nat :=
  runLen p (t.drop i)

/-- Greedy quantifier search: try the continuation at `base + k`,
`base + k - 1`, …, `base`, returning the first success. -/
def tryStar (next : Nat → Option Nat) (base : Nat) : Nat → Option Nat
  | 0 => next base
  | k + 1 =>
    match next (base + k + 1) with
    | some j => some j
    | none => tryStar next base k

/-- Anchored match of a token list against `t` at position `i`, returning
the end position of the (leftmost-greedy) match. -/
def reMatch (t : List Char) : List RTok → Nat → Option Nat
  | [], i => some i
  | RTok.bdry :: ps, i => if boundaryAt t i then reMatch t ps i else none
  | RTok.lit c :: ps, i =>
    match t.get? i with
    | some d => if charEqCI c d then reMatch t ps (i + 1) else none
    | none => none
  | RTok.wstar :: ps, i =>
    tryStar (fun j => reMatch t ps j) i (runFrom isWordChar t i)
  | RTok.splus :: ps, i =>
    match runFrom isPySpace t i with
    | 0 => none
    | k + 1 => tryStar (fun j => reMatch t ps j) (i + 1) k

/-- One step list of `re.finditer`: scan positions left to right, emit
non-overlapping matches, advancing by one after an empty match. -/
def finditerAux (t : List Char) (ps : List RTok) : Nat → Nat → List (Nat × Nat)
  | 0, _ => []
  | fuel + 1, pos =>
    if t.length < pos then []
    else
      match reMatch t ps pos with
      | some j => (pos, j) :: finditerAux t ps fuel (if pos < j then j else pos + 1)
      | none => finditerAux t ps fuel (pos + 1)

/-- `re.finditer(pattern, t)`: the list of `(start, end)` spans of the
non-overlapping matches. -/
def reFinditer (t : List Char) (ps : List RTok) : List (Nat × Nat) :=
  finditerAux t ps (t.length + 1) 0

/-- Python slice `t[s:e]`. -/
def pySlice (t : List Char) (s e : Nat) : List Char := (t.drop s).take (e - s)

/-! ### Embedded keyword data of `RuleBasedKeywordFilter.__init__` -/

/-- `self.depression_keywords`. -/
def depression_keywords : List (List Char) :=
  [str "depression", str "depressive symptoms", str "depressive disorder"]

/-- `self.mobile_keywords`. -/
def mobile_keywords : List (List Char) :=
  [str "mobile application", str "smartphone application", str "mobile",
   str "smartphone", str "iphone", str "android", str "app", str "digital",
   str "digital therapeutic", str "digital therapeutics", str "mhealth"]

/-- `self.behavioral_base_keywords`. -/
def behavioral_base_keywords : List (List Char) :=
  [str "behavioral activation", str "behavioural activation"]

/-- `self.behavioral_patterns` (raw pattern strings, exactly as in the
source). -/
def behavioral_patterns : List (List Char) :=
  [str "\\bactivity schedul\\w*",
   str "\\bbehavio\\w*\\s+interven\\w*",
   str "\\bbehavio\\w*\\s+therap\\w*"]

/-! ### `find_behavioral_keywords_in_text` -/

/-- Inner wildcard-match loop: append each pattern match (taken from the
lowered text) unless its lower-cased form is already present, together
with a first containing sentence. -/
def behavioralWildcardLoop (textLower : List Char) (sentences : List (List Char)) :
    List (Nat × Nat) → List (List Char) × List (List Char) →
      List (List Char) × List (List Char)
  | [], acc => acc
  | m :: ms, acc =>
    let matchedText := pySlice textLower m.1 m.2
    if (acc.1.map lowerStr).contains matchedText then
      behavioralWildcardLoop textLower sentences ms acc
    else
      behavioralWildcardLoop textLower sentences ms
        (acc.1 ++ [matchedText],
         acc.2 ++ firstSentence sentences (fun s => containsSub (lowerStr s) matchedText))

/-- Pattern loop of `find_behavioral_keywords_in_text`. -/
def behavioralPatternLoop (textLower : List Char) (sentences : List (List Char)) :
    List (List Char) → List (List Char) × List (List Char) →
      List (List Char) × List (List Char)
  | [], acc => acc
  | pat :: pats, acc =>
    behavioralPatternLoop textLower sentences pats
      (behavioralWildcardLoop textLower sentences
        (reFinditer textLower (parseRegex pat)) acc)

/-- `RuleBasedKeywordFilter.find_behavioral_keywords_in_text`: the base
literal keywords followed by wildcard-pattern matches found in the
lower-cased text, deduplicated by lower-cased matched string. -/
def find_behavioral_keywords_in_text (text : List Char) :
    List (List Char) × List (List Char) :=
  if text.isEmpty then ([], [])
  else
    behavioralPatternLoop (lowerStr text) (splitSentences text)
      behavioral_patterns (find_keywords_in_text text behavioral_base_keywords)

/-! ### `evaluate_single_paper` -/

/-- Result record of `evaluate_single_paper` (the returned dict). -/
structure EvalResult where
  depression_found : List (List Char)
  mobile_found : List (List Char)
  behavioral_found : List (List Char)
  result : List Char
deriving DecidableEq

/-- `RuleBasedKeywordFilter.evaluate_single_paper`: match all three
categories against `f"{title} {abstract}"` and include iff every category
found something. -/
def evaluate_single_paper (title abstract : List Char) : EvalResult :=
  let fullText := title ++ ' ' :: abstract
  let depression := (find_keywords_in_text fullText depression_keywords).1
  let mobile := (find_keywords_in_text fullText mobile_keywords).1
  let behavioral := (find_behavioral_keywords_in_text fullText).1
  { depression_found := depression
    mobile_found := mobile
    behavioral_found := behavioral
    result :=
      if !depression.isEmpty && !mobile.isEmpty && !behavioral.isEmpty then
        str "include"
      else str "exclude" }

/-! ### The highlighter of `streamlit_keyword_review.py` -/

/-- `keyword.replace('*', r'\w*')`. -/
def replaceStar (kw : List Char) : List Char :=
  kw.flatMap (fun c => if c = '*' then str "\\w*" else [c])

mutual

/-- `re.sub(r'\s+', r'\\s+', p)`: replace each maximal whitespace run by
the three characters `\s+`. -/
def collapseWs : List Char → List Char
  | [] => []
  | c :: cs =>
    if isPySpace c then str "\\s+" ++ collapseWsAfter cs else c :: collapseWs cs

/-- Continuation of `collapseWs` inside a whitespace run. -/
def collapseWsAfter : List Char → List Char
  | [] => []
  | c :: cs => if isPySpace c then collapseWsAfter cs else c :: collapseWs cs

end

/-- `convert_wildcard_to_regex`: keywords containing `*` become
word-bounded patterns with `*` expanded to `\w*` and whitespace runs to
`\s+`; other keywords yield `None`. -/
def convert_wildcard_to_regex (keyword : List Char) : Option (List Char) :=
  if keyword.contains '*' then
    some (str "\\b" ++ collapseWs (replaceStar keyword) ++ str "\\b")
  else none

/-- The compiled pattern used by `highlight_all_keywords` for one keyword:
the wildcard expansion when the keyword has a `*`, else the escaped
literal, word-bounded for single tokens in word-boundary mode. -/
def keywordPattern (useWordBoundary : Bool) (kw : List Char) : List RTok :=
  match convert_wildcard_to_regex kw with
  | some p => parseRegex p
  | none =>
    if useWordBoundary then
      if (pyTokens kw).length == 1 then
        RTok.bdry :: kw.map RTok.lit ++ [RTok.bdry]
      else kw.map RTok.lit
    else kw.map RTok.lit

/-- One collected match of the highlighter (the Python match dict). -/
structure HMatch where
  start : Nat
  stop : Nat
  text : List Char
  cls : List Char
deriving DecidableEq

/-- All matches of all selected keywords of all categories against the
text, in category/keyword iteration order. -/
def collectAllMatches (useWordBoundary : Bool) (text : List Char)
    (sel : List (List Char × List (List Char))) : List HMatch :=
  sel.flatMap (fun ck =>
    ck.2.flatMap (fun kw =>
      (reFinditer text (keywordPattern useWordBoundary kw)).map (fun m =>
        { start := m.1
          stop := m.2
          text := pySlice text m.1 m.2
          cls := str "highlight-" ++ ck.1 })))

/-- Insert a match into a list sorted by descending start offset, after
all entries with an equal or larger start (stable). -/
def insertDesc (m : HMatch) : List HMatch → List HMatch
  | [] => [m]
  | x :: xs => if x.start < m.start then m :: x :: xs else x :: insertDesc m xs

/-- Stable sort by descending start offset
(`all_matches.sort(key=..., reverse=True)`; Python list sort is stable, so
any stable sort computes the same list). -/
def sortByStartDesc (ms : List HMatch) : List HMatch :=
  ms.foldl (fun acc m => insertDesc m acc) []

/-- The overlap test of the highlighter. -/
def overlapB (m e : HMatch) : Bool := m.start < e.stop && e.start < m.stop

/-- Greedy overlap filter: keep a match only if it overlaps no
already-kept match. -/
def greedyKeepAux (acc : List HMatch) : List HMatch → List HMatch
  | [] => acc
  | m :: ms =>
    if acc.any (fun e => overlapB m e) then greedyKeepAux acc ms
    else greedyKeepAux (acc ++ [m]) ms

/-- The matches that `highlight_all_keywords` actually applies: all
matches, sorted by descending start, greedily filtered for overlap. -/
def keptMatches (useWordBoundary : Bool) (text : List Char)
    (sel : List (List Char × List (List Char))) : List HMatch :=
  greedyKeepAux [] (sortByStartDesc (collectAllMatches useWordBoundary text sel))

/-- Apply one highlight replacement:
`t[:start] + f'<span class="{cls}">{text}</span>' + t[end:]`. -/
def applyOne (t : List Char) (m : HMatch) : List Char :=
  t.take m.start ++ str "<span class=\"" ++ m.cls ++ str "\">" ++ m.text ++
    str "</span>" ++ t.drop m.stop

/-- `highlight_all_keywords(text, all_selected_keywords)` with the
session's word-boundary flag passed explicitly. -/
def highlight_all_keywords (useWordBoundary : Bool) (text : List Char)
    (sel : List (List Char × List (List Char))) : List Char :=
  if text.isEmpty then text
  else (keptMatches useWordBoundary text sel).foldl applyOne text

mutual

/-- Strip every HTML tag (`<`…`>`) from a string — the canonical way to
remove the span markers the highlighter inserts. -/
def stripMarkers : List Char → List Char
  | [] => []
  | c :: cs => if c = '<' then stripInTag cs else c :: stripMarkers cs

/-- Continuation of `stripMarkers` inside a tag. -/
def stripInTag : List Char → List Char
  | [] => []
  | c :: cs => if c = '>' then stripMarkers cs else stripInTag cs

end

/-- A decomposition piece of the highlighter output: plain source text or
a marker-wrapped matched substring. -/
inductive HPiece where
  | plain (s : List Char)
  | tagged (cls : List Char) (s : List Char)

/-- The rendered form of a piece (what appears in the output). -/
def renderPiece : HPiece → List Char
  | HPiece.plain s => s
  | HPiece.tagged cls s =>
    str "<span class=\"" ++ cls ++ str "\">" ++ s ++ str "</span>"

/-- The content of a piece (what the piece contributes to the unmarked
text). -/
def contentPiece : HPiece → List Char
  | HPiece.plain s => s
  | HPiece.tagged _ s => s

/-- Concatenation of a list of strings. -/
def joinL (ls : List (List Char)) : List Char := ls.foldr (· ++ ·) []

/-! ### The LLM secondary filter (`llm_secondary_filter.py`)

The LLM call itself, the two parsing attempts and the CSV/checkpoint I/O
are external collaborators; they are modelled as oracle parameters.  A
record's two parse attempts (the structured chain parse and the raw-text
fallback parse) are each `Option LLMKeywordResult`, `none` meaning that
attempt raised or produced nothing. -/

/-- The structured response model (`LLMKeywordResult`), fields as strings
exactly as in the pydantic model. -/
structure LLMKeywordResult where
  depression_keywords : List Char
  mobile_keywords : List Char
  behavioral_keywords : List Char
  result : List Char
  depression_highlight : List Char
  mobile_highlight : List Char
  behavioral_highlight : List Char
  reason : List Char
deriving DecidableEq

/-- `process_single_article`: return the structured parse if it
succeeded, otherwise the fallback parse, otherwise `None`. -/
def process_single_article (structured fallback : Option LLMKeywordResult) :
    Option LLMKeywordResult :=
  match structured with
  | some r => some r
  | none => fallback

/-- One input row of the rule-stage CSV consumed by
`process_exclude_papers`. -/
structure InputRow where
  doi : List Char
  title : List Char
  authors : List Char
  journal : List Char
  year : List Char
  abstract : List Char
  depression_keywords : List Char
  mobile_keywords : List Char
  behavioral_keywords : List Char
  result : List Char
deriving DecidableEq

/-- One output row of the LLM-stage CSV. -/
structure OutputRow where
  doi : List Char
  title : List Char
  authors : List Char
  journal : List Char
  year : List Char
  abstract : List Char
  rule_depression_keywords : List Char
  rule_mobile_keywords : List Char
  rule_behavioral_keywords : List Char
  rule_result : List Char
  llm_depression_keywords : List Char
  llm_mobile_keywords : List Char
  llm_behavioral_keywords : List Char
  llm_result : List Char
  llm_depression_highlight : List Char
  llm_mobile_highlight : List Char
  llm_behavioral_highlight : List Char
  llm_reason : List Char
  final_result : List Char
deriving DecidableEq

/-- Python truthiness/`'nan'` check used for title and abstract. -/
def isMissingField (s : List Char) : Bool := s.isEmpty || s == str "nan"

/-- Processing of one rule-excluded row: missing-field short cut, then the
LLM attempt, then the failure fallback. -/
def processExcludedRow (attempts : InputRow → Option LLMKeywordResult × Option LLMKeywordResult)
    (row : InputRow) : OutputRow :=
  if isMissingField row.title || isMissingField row.abstract then
    { doi := row.doi, title := row.title, authors := row.authors
      journal := row.journal, year := row.year, abstract := row.abstract
      rule_depression_keywords := row.depression_keywords
      rule_mobile_keywords := row.mobile_keywords
      rule_behavioral_keywords := row.behavioral_keywords
      rule_result := str "exclude"
      llm_depression_keywords := [], llm_mobile_keywords := []
      llm_behavioral_keywords := [], llm_result := str "exclude"
      llm_depression_highlight := [], llm_mobile_highlight := []
      llm_behavioral_highlight := []
      llm_reason := str "제목 또는 초록 누락"
      final_result := str "exclude" }
  else
    match process_single_article (attempts row).1 (attempts row).2 with
    | some res =>
      { doi := row.doi, title := row.title, authors := row.authors
        journal := row.journal, year := row.year, abstract := row.abstract
        rule_depression_keywords := row.depression_keywords
        rule_mobile_keywords := row.mobile_keywords
        rule_behavioral_keywords := row.behavioral_keywords
        rule_result := str "exclude"
        llm_depression_keywords := res.depression_keywords
        llm_mobile_keywords := res.mobile_keywords
        llm_behavioral_keywords := res.behavioral_keywords
        llm_result := res.result
        llm_depression_highlight := res.depression_highlight
        llm_mobile_highlight := res.mobile_highlight
        llm_behavioral_highlight := res.behavioral_highlight
        llm_reason := res.reason
        final_result := res.result }
    | none =>
      { doi := row.doi, title := row.title, authors := row.authors
        journal := row.journal, year := row.year, abstract := row.abstract
        rule_depression_keywords := row.depression_keywords
        rule_mobile_keywords := row.mobile_keywords
        rule_behavioral_keywords := row.behavioral_keywords
        rule_result := str "exclude"
        llm_depression_keywords := [], llm_mobile_keywords := []
        llm_behavioral_keywords := [], llm_result := str "exclude"
        llm_depression_highlight := [], llm_mobile_highlight := []
        llm_behavioral_highlight := []
        llm_reason := str "LLM 처리 실패"
        final_result := str "exclude" }

/-- Pass-through of an already-included row: original fields become the
`rule_`-prefixed columns, LLM fields are sentinels, final result
`include`. -/
def includeRowOut (row : InputRow) : OutputRow :=
  { doi := row.doi, title := row.title, authors := row.authors
    journal := row.journal, year := row.year, abstract := row.abstract
    rule_depression_keywords := row.depression_keywords
    rule_mobile_keywords := row.mobile_keywords
    rule_behavioral_keywords := row.behavioral_keywords
    rule_result := row.result
    llm_depression_keywords := [], llm_mobile_keywords := []
    llm_behavioral_keywords := [], llm_result := str "not_processed"
    llm_depression_highlight := [], llm_mobile_highlight := []
    llm_behavioral_highlight := []
    llm_reason := str "이미 규칙 기반에서 포함됨"
    final_result := str "include" }

/-- `LLMSecondaryFilter.process_exclude_papers` without the I/O and
checkpointing glue: when no row is rule-excluded the input frame is
returned unchanged (left); otherwise the passed-through include rows
followed by the processed exclude rows (right). -/
def process_exclude_papers
    (attempts : InputRow → Option LLMKeywordResult × Option LLMKeywordResult)
    (df : List InputRow) : List InputRow ⊕ List OutputRow :=
  let excludeDf := df.filter (fun r => r.result == str "exclude")
  let includeDf := df.filter (fun r => r.result == str "include")
  if excludeDf.isEmpty then Sum.inl df
  else
    Sum.inr (includeDf.map includeRowOut ++ excludeDf.map (processExcludedRow attempts))

/-! ### The review session reset (`streamlit_keyword_review.py`) -/

/-- One row of the review table with the human-review columns. -/
structure ReviewRow where
  doi : List Char
  title : List Char
  abstract : List Char
  depression_keywords : List Char
  mobile_keywords : List Char
  behavioral_keywords : List Char
  result : List Char
  rule_result : List Char
  llm_result : List Char
  llm_reason : List Char
  final_result : List Char
  human_depression_keywords : List Char
  human_mobile_keywords : List Char
  human_behavioral_keywords : List Char
  human_result : List Char
  reviewer_name : List Char
  review_status : List Char
  review_date : Option (List Char)
deriving DecidableEq

/-- The three fixed keyword-option sets restored by
`load_current_paper_keywords`. -/
structure SelectedKeywords where
  depression : List (List Char)
  mobile : List (List Char)
  behavioral : List (List Char)
deriving DecidableEq

/-- `load_current_paper_keywords`: the selection is reset to the fixed
option sets. -/
def loadCurrentPaperKeywords : SelectedKeywords :=
  { depression := [str "depression", str "depressive symptoms", str "depressive disorder"]
    mobile := [str "mobile application", str "smartphone application", str "mobile",
               str "smartphone", str "iphone", str "android", str "app", str "digital",
               str "digital therapeutic", str "mhealth"]
    behavioral := [str "behavioral activation", str "behavioural activation",
                   str "activity schedul*", str "behavio* interven*", str "behavio* therap*"] }

/-- The mutable session state touched by the reset handler. -/
structure SessionState where
  df : List ReviewRow
  current_idx : Nat
  changes_made : Bool
  reviewer_name : List Char
  selected_keywords : SelectedKeywords
deriving DecidableEq

/-- Replace the element at index `i` (no-op when out of range), as
`df.at[idx, col] = v` row updates. -/
def updateAt (f : ReviewRow → ReviewRow) : Nat → List ReviewRow → List ReviewRow
  | _, [] => []
  | 0, r :: rs => f r :: rs
  | i + 1, r :: rs => r :: updateAt f i rs

/-- The field updates of the reset button handler on the current row. -/
def resetRow (r : ReviewRow) : ReviewRow :=
  { r with
    human_depression_keywords := []
    human_mobile_keywords := []
    human_behavioral_keywords := []
    human_result := []
    review_status := str "미완료"
    review_date := none }

/-- The reset button handler (`render_data_navigation`, "재설정"): clear
the current row's human fields and status, flag changes, reload the
keyword options; the cursor is not moved. -/
def resetCurrent (st : SessionState) : SessionState :=
  { st with
    df := updateAt resetRow st.current_idx st.df
    changes_made := true
    selected_keywords := loadCurrentPaperKeywords }

/-! ### Proof-support definitions -/

/-- Scan a literal character sequence of a pattern from position `i`
(case-insensitively), returning the end position. -/
def litScan (t : List Char) : List Char → Nat → Option Nat
  | [], i => some i
  | c :: cs, i =>
    match t.get? i with
    | some d => if charEqCI c d then litScan t cs (i + 1) else none
    | none => none

/-- Functional rendering of a descending, disjoint span list: the closed
form that the highlighter's in-place replacements compute. -/
def renderAll (t : List Char) : List HMatch → List Char
  | [] => t
  | m :: ms =>
    renderAll (t.take m.start) ms ++ str "<span class=\"" ++ m.cls ++
      str "\">" ++ m.text ++ str "</span>" ++ t.drop m.stop

/-- A concrete review row used to instantiate universally quantified
results on concrete inputs. -/
def sampleReviewRow : ReviewRow :=
  { doi := str "10.1/x", title := str "Mobile App for Depression"
    abstract := str "A behavioural activation app."
    depression_keywords := str "depression", mobile_keywords := str "app"
    behavioral_keywords := str "behavioural activation"
    result := str "include", rule_result := str "include"
    llm_result := str "not_processed", llm_reason := str ""
    final_result := str "include"
    human_depression_keywords := str "depression"
    human_mobile_keywords := str "app"
    human_behavioral_keywords := str "behavioural activation"
    human_result := str "include", reviewer_name := str "reviewer"
    review_status := str "완료", review_date := some (str "2025-07-02") }

/-- A concrete session state with one row and the cursor on it. -/
def sampleSessionState : SessionState :=
  { df := [sampleReviewRow], current_idx := 0, changes_made := false
    reviewer_name := str "reviewer", selected_keywords := loadCurrentPaperKeywords }

/-- A concrete rule-included input row. -/
def sampleIncludeRow : InputRow :=
  { doi := str "10.1/a", title := str "Mobile App for Depression"
    authors := str "A", journal := str "J", year := str "2024"
    abstract := str "A smartphone application for behavioral activation."
    depression_keywords := str "depression", mobile_keywords := str "app"
    behavioral_keywords := str "behavioral activation"
    result := str "include" }

/-- A concrete rule-excluded input row with title and abstract present. -/
def sampleExcludeRow : InputRow :=
  { doi := str "10.1/b", title := str "A Study of Exercise"
    authors := str "B", journal := str "J", year := str "2024"
    abstract := str "Exercise improves mood."
    depression_keywords := str "", mobile_keywords := str ""
    behavioral_keywords := str "", result := str "exclude" }

/-- The failing LLM oracle: both parse attempts raise for every record. -/
def failingAttempts (_ : InputRow) :
    Option LLMKeywordResult × Option LLMKeywordResult := (none, none)

/-! ## Character-class lemmas -/

theorem lowerOf_pred (q : Char → Bool) :
    ∀ ps : List (Char × Char), (∀ p ∈ ps, q p.1 = q p.2) →
      ∀ c, q (lowerOf ps c) = q c := by
  intro ps
  induction ps with
  | nil => intro _ c; rfl
  | cons p ps ih =>
    intro h c
    simp only [lowerOf]
    by_cases hc : c = p.1
    · subst hc
      rw [if_pos rfl]
      exact (h p (List.mem_cons_self p ps)).symm
    · rw [if_neg hc]
      exact ih (fun q hq => h q (List.mem_cons_of_mem p hq)) c

theorem isWordChar_pyToLower (c : Char) : isWordChar (pyToLower c) = isWordChar c :=
  lowerOf_pred isWordChar asciiCasePairs (by decide) c

theorem isPySpace_pyToLower (c : Char) : isPySpace (pyToLower c) = isPySpace c :=
  lowerOf_pred isPySpace asciiCasePairs (by decide) c

theorem charEqCI_lower_eq {c d : Char} (h : charEqCI c d = true) :
    pyToLower c = pyToLower d := by
  simpa [charEqCI] using h

theorem isWordChar_of_charEqCI {c d : Char} (h : charEqCI c d = true) :
    isWordChar d = isWordChar c := by
  rw [← isWordChar_pyToLower d, ← charEqCI_lower_eq h, isWordChar_pyToLower c]

theorem isPySpace_of_charEqCI {c d : Char} (h : charEqCI c d = true) :
    isPySpace d = isPySpace c := by
  rw [← isPySpace_pyToLower d, ← charEqCI_lower_eq h, isPySpace_pyToLower c]

theorem lowerOf_cases :
    ∀ (ps : List (Char × Char)) (c : Char),
      (∃ p ∈ ps, c = p.1 ∧ lowerOf ps c = p.2) ∨ lowerOf ps c = c := by
  intro ps
  induction ps with
  | nil => intro c; exact Or.inr rfl
  | cons p ps ih =>
    intro c
    simp only [lowerOf]
    by_cases hc : c = p.1
    · exact Or.inl ⟨p, List.mem_cons_self p ps, hc, by rw [if_pos hc]⟩
    · rw [if_neg hc]
      rcases ih c with ⟨q, hq, hc', he⟩ | he
      · exact Or.inl ⟨q, List.mem_cons_of_mem p hq, hc', he⟩
      · exact Or.inr he

theorem pyToLower_idem (c : Char) : pyToLower (pyToLower c) = pyToLower c := by
  rcases lowerOf_cases asciiCasePairs c with ⟨p, hp, _, he⟩ | he
  · have hfix : ∀ p ∈ asciiCasePairs, pyToLower p.2 = p.2 := by decide
    unfold pyToLower
    rw [he]
    exact hfix p hp
  · unfold pyToLower
    rw [he, he]

theorem lowerStr_idem (s : List Char) : lowerStr (lowerStr s) = lowerStr s := by
  simp only [lowerStr, List.map_map]
  exact List.map_congr_left (fun c _ => pyToLower_idem c)

/-! ## Run-length and list-access lemmas -/

theorem runLen_le (p : Char → Bool) : ∀ l : List Char, runLen p l ≤ l.length := by
  intro l
  induction l with
  | nil => simp [runLen]
  | cons c cs ih =>
    simp only [runLen, List.length_cons]
    by_cases h : p c = true
    · rw [if_pos h]; omega
    · rw [if_neg h]; omega

theorem runLen_mem (p : Char → Bool) :
    ∀ (l : List Char) (i : Nat), i < runLen p l →
      ∃ c, l.get? i = some c ∧ p c = true := by
  intro l
  induction l with
  | nil => intro i h; simp [runLen] at h
  | cons c cs ih =>
    intro i h
    simp only [runLen] at h
    by_cases hc : p c = true
    · rw [if_pos hc] at h
      cases i with
      | zero => exact ⟨c, rfl, hc⟩
      | succ i => exact ih i (by omega)
    · rw [if_neg hc] at h; omega

theorem runLen_stop (p : Char → Bool) :
    ∀ (l : List Char) (c : Char), l.get? (runLen p l) = some c → p c = false := by
  intro l
  induction l with
  | nil => intro c h; simp at h
  | cons d ds ih =>
    intro c h
    simp only [runLen] at h
    by_cases hd : p d = true
    · rw [if_pos hd] at h
      exact ih c h
    · rw [if_neg hd] at h
      simp only [List.get?_cons_zero, Option.some_inj] at h
      subst h
      simpa using hd

theorem drop_eq_cons {t : List Char} {i : Nat} {c : Char}
    (h : t.get? i = some c) : t.drop i = c :: t.drop (i + 1) := by
  induction t generalizing i with
  | nil => simp at h
  | cons d ds ih =>
    cases i with
    | zero =>
      simp only [List.get?_cons_zero, Option.some_inj] at h
      subst h
      simp
    | succ i =>
      simp only [List.get?_cons_succ] at h
      simpa [List.drop_succ_cons] using ih h

theorem runLen_one {t : List Char} {i : Nat} {c d : Char}
    (hc : t.get? i = some c) (hcs : isPySpace c = true)
    (hd : t.get? (i + 1) = some d) (hds : isPySpace d = false) :
    runFrom isPySpace t i = 1 := by
  unfold runFrom
  rw [drop_eq_cons hc, drop_eq_cons hd]
  simp [runLen, hcs, hds]

/-! ## Matcher lemmas -/

theorem tryStar_congr {f g : Nat → Option Nat} (h : ∀ j, f j = g j)
    (base : Nat) : ∀ k, tryStar f base k = tryStar g base k := by
  intro k
  induction k with
  | zero => simpa [tryStar] using h base
  | succ k ih =>
    simp only [tryStar, h (base + k + 1)]
    cases g (base + k + 1) with
    | some j => rfl
    | none => simpa using ih

theorem tryStar_top {next : Nat → Option Nat} {base k j : Nat}
    (h : next (base + k) = some j) : tryStar next base k = some j := by
  cases k with
  | zero => simpa [tryStar] using h
  | succ k =>
    rw [Nat.add_succ] at h
    simp only [tryStar, h]

theorem tryStar_bound {next : Nat → Option Nat} :
    ∀ {k base j}, tryStar next base k = some j →
      ∃ m, base ≤ m ∧ m ≤ base + k ∧ next m = some j := by
  intro k
  induction k with
  | zero =>
    intro base j h
    exact ⟨base, Nat.le_refl _, Nat.le_refl _, by simpa [tryStar] using h⟩
  | succ k ih =>
    intro base j h
    simp only [tryStar] at h
    cases hn : next (base + k + 1) with
    | some j' =>
      rw [hn] at h
      have h' : j' = j := by simpa using h
      exact ⟨base + k + 1, by omega, by omega, by rw [hn, h']⟩
    | none =>
      rw [hn] at h
      simp only at h
      obtain ⟨m, h1, h2, h3⟩ := ih h
      exact ⟨m, h1, by omega, h3⟩

theorem wordCharAt_in_run {t : List Char} {i k : Nat}
    (h : k < runFrom isWordChar t i) : wordCharAt t (i + k) = true := by
  obtain ⟨c, hc, hw⟩ := runLen_mem isWordChar (t.drop i) k h
  rw [List.get?_drop] at hc
  unfold wordCharAt
  rw [hc]
  exact hw

theorem wordCharAt_run_end (t : List Char) (i : Nat) :
    wordCharAt t (i + runFrom isWordChar t i) = false := by
  unfold wordCharAt
  cases hc : t.get? (i + runFrom isWordChar t i) with
  | none => rfl
  | some c =>
    rw [← List.get?_drop] at hc
    exact runLen_stop isWordChar (t.drop i) c hc

theorem reMatch_bound {t : List Char} :
    ∀ (ps : List RTok) (i j : Nat), i ≤ t.length →
      reMatch t ps i = some j → i ≤ j ∧ j ≤ t.length := by
  intro ps
  induction ps with
  | nil =>
    intro i j hi h
    simp only [reMatch, Option.some_inj] at h
    omega
  | cons p ps ih =>
    intro i j hi h
    cases p with
    | bdry =>
      simp only [reMatch] at h
      by_cases hb : boundaryAt t i = true
      · rw [if_pos hb] at h
        exact ih i j hi h
      · rw [if_neg hb] at h; cases h
    | lit c =>
      simp only [reMatch] at h
      cases hg : t.get? i with
      | none => rw [hg] at h; cases h
      | some d =>
        rw [hg] at h
        have h' : (if charEqCI c d = true then reMatch t ps (i + 1) else none) = some j := h
        have hlen : i < t.length := by
          by_contra hx
          rw [List.get?_eq_none.mpr (by omega)] at hg
          cases hg
        by_cases he : charEqCI c d = true
        · rw [if_pos he] at h'
          have := ih (i + 1) j (by omega) h'
          omega
        · rw [if_neg he] at h'; cases h'
    | wstar =>
      simp only [reMatch] at h
      obtain ⟨m, h1, h2, h3⟩ := tryStar_bound h
      have hrun : runFrom isWordChar t i ≤ t.length - i := by
        have := runLen_le isWordChar (t.drop i)
        simpa [runFrom, List.length_drop] using this
      have := ih m j (by omega) h3
      omega
    | splus =>
      simp only [reMatch] at h
      cases hr : runFrom isPySpace t i with
      | zero => rw [hr] at h; cases h
      | succ k =>
        rw [hr] at h
        obtain ⟨m, h1, h2, h3⟩ := tryStar_bound h
        have hrun : runFrom isPySpace t i ≤ t.length - i := by
          have := runLen_le isPySpace (t.drop i)
          simpa [runFrom, List.length_drop] using this
        have := ih m j (by omega) h3
        omega

theorem reMatch_wstar_bdry (t : List Char) :
    ∀ j, 0 < j → wordCharAt t (j - 1) = true →
      reMatch t [RTok.wstar, RTok.bdry] j = reMatch t [RTok.wstar] j := by
  intro j hj hw
  have hend : wordCharAt t (j + runFrom isWordChar t j) = false :=
    wordCharAt_run_end t j
  have hbdry : boundaryAt t (j + runFrom isWordChar t j) = true := by
    unfold boundaryAt
    rw [hend]
    have hne : ¬ (j + runFrom isWordChar t j = 0) := by omega
    rw [if_neg hne]
    cases hr : runFrom isWordChar t j with
    | zero =>
      have : j + 0 - 1 = j - 1 := by omega
      simp only [hr, this, hw, bne_iff_ne]
      simp
    | succ k =>
      have hk : wordCharAt t (j + k) = true :=
        wordCharAt_in_run (by omega)
      have : j + (k + 1) - 1 = j + k := by omega
      simp only [this, hk, bne_iff_ne]
      simp
  have hL : reMatch t [RTok.wstar, RTok.bdry] j = some (j + runFrom isWordChar t j) := by
    simp only [reMatch]
    apply tryStar_top
    simp only [reMatch, hbdry, if_pos]
  have hR : reMatch t [RTok.wstar] j = some (j + runFrom isWordChar t j) := by
    simp only [reMatch]
    apply tryStar_top
    simp only [reMatch]
  rw [hL, hR]

theorem reMatch_tailCong (t : List Char) (T1 T2 : List RTok)
    (hT : ∀ j, 0 < j → wordCharAt t (j - 1) = true →
      reMatch t T1 j = reMatch t T2 j)
    (c : Char) (hc : isWordChar c = true) :
    ∀ (ps : List RTok) (i : Nat),
      reMatch t (ps ++ RTok.lit c :: T1) i = reMatch t (ps ++ RTok.lit c :: T2) i := by
  intro ps
  induction ps with
  | nil =>
    intro i
    simp only [List.nil_append, reMatch]
    cases hg : t.get? i with
    | none => rfl
    | some d =>
      show (if charEqCI c d = true then reMatch t T1 (i + 1) else none) =
        (if charEqCI c d = true then reMatch t T2 (i + 1) else none)
      by_cases he : charEqCI c d = true
      · rw [if_pos he, if_pos he]
        apply hT (i + 1) (by omega)
        have hd : isWordChar d = true := by
          rw [isWordChar_of_charEqCI he]; exact hc
        have hi : i + 1 - 1 = i := by omega
        rw [hi]
        unfold wordCharAt
        rw [hg]
        exact hd
      · rw [if_neg he, if_neg he]
  | cons p ps ih =>
    intro i
    cases p with
    | bdry =>
      simp only [List.cons_append, reMatch]
      by_cases hb : boundaryAt t i = true
      · rw [if_pos hb, if_pos hb]; exact ih i
      · rw [if_neg hb, if_neg hb]
    | lit c' =>
      simp only [List.cons_append, reMatch]
      cases hg : t.get? i with
      | none => rfl
      | some d =>
        show (if charEqCI c' d = true then
            reMatch t (ps ++ RTok.lit c :: T1) (i + 1) else none) =
          (if charEqCI c' d = true then
            reMatch t (ps ++ RTok.lit c :: T2) (i + 1) else none)
        exact if_congr Iff.rfl (ih (i + 1)) rfl
    | wstar =>
      simp only [List.cons_append, reMatch]
      exact tryStar_congr ih i _
    | splus =>
      simp only [List.cons_append, reMatch]
      cases runFrom isPySpace t i with
      | zero => rfl
      | succ k => exact tryStar_congr ih (i + 1) k

/-! ## Substring and word-boundary characterizations -/

theorem litsMatch_iff : ∀ (k xs : List Char),
    litsMatch k xs = true ↔ ∃ post, xs = k ++ post := by
  intro k
  induction k with
  | nil => intro xs; simp [litsMatch]
  | cons c cs ih =>
    intro xs
    cases xs with
    | nil =>
      simp [litsMatch]
    | cons d ds =>
      simp only [litsMatch, Bool.and_eq_true, beq_iff_eq, List.cons_append,
        List.cons.injEq, ih ds]
      constructor
      · rintro ⟨rfl, post, rfl⟩
        exact ⟨post, rfl, rfl⟩
      · rintro ⟨post, rfl, rfl⟩
        exact ⟨rfl, post, rfl⟩

theorem wordCharAt_append_left {pre : List Char} (rest : List Char)
    (hne : pre ≠ []) :
    wordCharAt (pre ++ rest) (pre.length - 1) = lastIsWord pre := by
  have hlt : pre.length - 1 < pre.length := by
    have := List.length_pos.mpr hne
    omega
  unfold wordCharAt lastIsWord
  rw [List.get?_append hlt, List.getLast?_eq_get?]

theorem wordCharAt_append_right (pre rest : List Char) :
    wordCharAt (pre ++ rest) pre.length = headIsWord rest := by
  unfold wordCharAt headIsWord
  rw [List.get?_append_right (Nat.le_refl _), Nat.sub_self, List.get?_zero]

theorem boundaryAt_seam (pre rest : List Char) :
    boundaryAt (pre ++ rest) pre.length = seamBoundary pre rest := by
  unfold boundaryAt seamBoundary
  rw [wordCharAt_append_right]
  congr 1
  by_cases h : pre.length = 0
  · rw [if_pos h]
    have hnil : pre = [] := List.length_eq_zero.mp h
    subst hnil
    rfl
  · rw [if_neg h]
    exact wordCharAt_append_left rest (fun he => h (by subst he; rfl))

theorem hasBoundedMatch_iff (t k : List Char) :
    hasBoundedMatch t k = true ↔ SpecBoundedOccurrence t k := by
  unfold hasBoundedMatch SpecBoundedOccurrence
  rw [List.any_eq_true]
  constructor
  · rintro ⟨i, hmem, hp⟩
    rw [List.mem_range] at hmem
    simp only [Bool.and_eq_true] at hp
    obtain ⟨⟨h1, h2⟩, h3⟩ := hp
    obtain ⟨post, hpost⟩ := (litsMatch_iff k (t.drop i)).mp h1
    have hi : i ≤ t.length := by omega
    have hpre : (t.take i).length = i := by
      rw [List.length_take]
      omega
    have ht : t = t.take i ++ (k ++ post) := by
      conv_lhs => rw [← List.take_append_drop i t, hpost]
    refine ⟨t.take i, post, ht.trans (List.append_assoc _ _ _).symm, ?_, ?_⟩
    · rw [← boundaryAt_seam, ← ht, hpre]
      exact h2
    · have ht2 : t = (t.take i ++ k) ++ post :=
        ht.trans (List.append_assoc _ _ _).symm
      have hlen2 : (t.take i ++ k).length = i + k.length := by
        rw [List.length_append, hpre]
      rw [← boundaryAt_seam, ← ht2, hlen2]
      exact h3
  · rintro ⟨pre, post, ht, hs1, hs2⟩
    refine ⟨pre.length, ?_, ?_⟩
    · rw [List.mem_range, ht]
      simp only [List.append_assoc, List.length_append]
      omega
    · simp only [Bool.and_eq_true]
      refine ⟨⟨?_, ?_⟩, ?_⟩
      · rw [ht]
        unfold matchAt
        rw [List.append_assoc, List.drop_left]
        exact (litsMatch_iff k (k ++ post)).mpr ⟨post, rfl⟩
      · rw [ht, List.append_assoc, boundaryAt_seam]
        exact hs1
      · have hlen2 : pre.length + k.length = (pre ++ k).length := by
          rw [List.length_append]
        rw [ht, hlen2, boundaryAt_seam]
        exact hs2

theorem containsSub_iff (t k : List Char) :
    containsSub t k = true ↔ ∃ pre post, t = pre ++ k ++ post := by
  unfold containsSub
  rw [List.any_eq_true]
  constructor
  · rintro ⟨i, hmem, hp⟩
    obtain ⟨post, hpost⟩ := (litsMatch_iff k (t.drop i)).mp hp
    refine ⟨t.take i, post, ?_⟩
    conv_lhs => rw [← List.take_append_drop i t]
    rw [hpost, List.append_assoc]
  · rintro ⟨pre, post, ht⟩
    refine ⟨pre.length, ?_, ?_⟩
    · rw [List.mem_range, ht]
      simp only [List.append_assoc, List.length_append]
      omega
    · rw [ht]
      unfold matchAt
      rw [List.append_assoc, List.drop_left]
      exact (litsMatch_iff k (k ++ post)).mpr ⟨post, rfl⟩

theorem findKeywordsLoop_fst (tl : List Char) (ss : List (List Char)) :
    ∀ ks, (findKeywordsLoop tl ss ks).1 =
      ks.filter (fun k => kwMatches tl k) := by
  intro ks
  induction ks with
  | nil => rfl
  | cons kw rest ih =>
    simp only [findKeywordsLoop, List.filter_cons]
    by_cases h : kwMatches tl kw = true
    · simp only [h, if_pos, if_true]
      simpa using ih
    · simp only [h, if_neg, if_false, Bool.false_eq_true]
      simpa using ih

theorem find_keywords_fst (t : List Char) (ks : List (List Char)) :
    (find_keywords_in_text t ks).1 =
      if t.isEmpty then [] else ks.filter (fun k => kwMatches (lowerStr t) k) := by
  unfold find_keywords_in_text
  by_cases h : t.isEmpty
  · rw [if_pos h, if_pos h]
  · rw [if_neg h, if_neg h]
    exact findKeywordsLoop_fst _ _ ks

theorem pyTokens_nil : pyTokens ([] : List Char) = [] := rfl

theorem pyTokens_ne_nil {k : List Char} (h : (pyTokens k).length ≠ 0) :
    k ≠ [] := by
  intro he
  subst he
  exact h (by rfl)

theorem lowerStr_ne_nil {k : List Char} (h : k ≠ []) : lowerStr k ≠ [] := by
  cases k with
  | nil => exact absurd rfl h
  | cons c cs => simp [lowerStr]

theorem reMatch_lits_append (t : List Char) :
    ∀ (L : List Char) (rest : List RTok) (i : Nat),
      reMatch t (L.map RTok.lit ++ rest) i =
        match litScan t L i with
        | some p => reMatch t rest p
        | none => none := by
  intro L
  induction L with
  | nil => intro rest i; rfl
  | cons c cs ih =>
    intro rest i
    simp only [List.map_cons, List.cons_append, reMatch, litScan]
    cases t.get? i with
    | none => rfl
    | some d =>
      show (if charEqCI c d = true then
          reMatch t (List.map RTok.lit cs ++ rest) (i + 1) else none) =
        (match (if charEqCI c d = true then litScan t cs (i + 1) else none) with
          | some p => reMatch t rest p
          | none => none)
      by_cases he : charEqCI c d = true
      · rw [if_pos he, if_pos he]
        exact ih rest (i + 1)
      · rw [if_neg he, if_neg he]

/-! ## Claim C1 -/

/-- C1: for every text `t` and keyword list `ks`, `find_keywords_in_text`
reports a single-token keyword `k` as matched iff `t` contains a
case-insensitive occurrence of `k` bounded by word boundaries
(alphanumeric/underscore-bounded), reports a multi-token keyword as
matched iff its lower-cased phrase occurs as a verbatim substring of the
lower-cased text, and matched keywords are reported in the order of the
input keyword list (the output is a sublist of it). -/
theorem claim_C1_find_keywords_in_text_matching (t : List Char)
    (ks : List (List Char)) (k : List Char) (hk : k ∈ ks) :
    ((find_keywords_in_text t ks).1.Sublist ks) ∧
    ((pyTokens k).length = 1 →
      (k ∈ (find_keywords_in_text t ks).1 ↔
        SpecBoundedOccurrence (lowerStr t) (lowerStr k))) ∧
    (2 ≤ (pyTokens k).length →
      (k ∈ (find_keywords_in_text t ks).1 ↔
        ∃ pre post, lowerStr t = pre ++ lowerStr k ++ post)) := by
  rw [find_keywords_fst]
  by_cases he : t.isEmpty = true
  · rw [if_pos he]
    have ht : t = [] := List.isEmpty_iff.mp he
    subst ht
    refine ⟨List.nil_sublist ks, ?_, ?_⟩
    · intro h1
      constructor
      · intro hmem
        exact absurd hmem (List.not_mem_nil k)
      · rintro ⟨pre, post, hdec, -, -⟩
        have hknil : lowerStr k ≠ [] :=
          lowerStr_ne_nil (pyTokens_ne_nil (by omega))
        have : lowerStr ([] : List Char) = [] := rfl
        rw [this] at hdec
        rcases List.append_eq_nil.mp hdec.symm with ⟨h2, -⟩
        rcases List.append_eq_nil.mp h2 with ⟨-, h3⟩
        exact (hknil h3).elim
    · intro h2
      constructor
      · intro hmem
        exact absurd hmem (List.not_mem_nil k)
      · rintro ⟨pre, post, hdec⟩
        have hknil : lowerStr k ≠ [] :=
          lowerStr_ne_nil (pyTokens_ne_nil (by omega))
        have : lowerStr ([] : List Char) = [] := rfl
        rw [this] at hdec
        rcases List.append_eq_nil.mp hdec.symm with ⟨h3, -⟩
        rcases List.append_eq_nil.mp h3 with ⟨-, h4⟩
        exact (hknil h4).elim
  · rw [if_neg he]
    have hmem : k ∈ ks.filter (fun k => kwMatches (lowerStr t) k) ↔
        kwMatches (lowerStr t) k = true := by
      rw [List.mem_filter]
      exact ⟨fun h => h.2, fun h => ⟨hk, h⟩⟩
    refine ⟨List.filter_sublist ks, ?_, ?_⟩
    · intro h1
      rw [hmem]
      unfold kwMatches
      have hbeq : ((pyTokens k).length == 1) = true := by
        rw [beq_iff_eq]; exact h1
      rw [hbeq, if_pos rfl]
      exact hasBoundedMatch_iff (lowerStr t) (lowerStr k)
    · intro h2
      rw [hmem]
      unfold kwMatches
      have hbeq : ((pyTokens k).length == 1) = false := by
        rw [beq_eq_false_iff_ne]; omega
      rw [hbeq]
      simp only [Bool.false_eq_true, if_false]
      exact containsSub_iff (lowerStr t) (lowerStr k)

/-- Witness for C1 at a concrete input: the single-token keyword `app`
against a text containing it as a whole word. -/
theorem claim_C1_witness :
    str "app" ∈ (find_keywords_in_text (str "We use this app daily")
        [str "app", str "apply"]).1 ↔
      SpecBoundedOccurrence (lowerStr (str "We use this app daily"))
        (lowerStr (str "app")) :=
  (claim_C1_find_keywords_in_text_matching (str "We use this app daily")
    [str "app", str "apply"] (str "app") (by decide)).2.1 (by decide)

/-! ## Claim C10 -/

/-- C10: every string reported by `find_keywords_in_text` is an element of
the input keyword list (with its exact casing — never a string taken from
the text), and for duplicate-free keyword lists every keyword is reported
at most once. -/
theorem claim_C10_output_from_keyword_list (t : List Char)
    (ks : List (List Char)) :
    (∀ k ∈ (find_keywords_in_text t ks).1, k ∈ ks) ∧
    (ks.Nodup → (find_keywords_in_text t ks).1.Nodup) := by
  rw [find_keywords_fst]
  by_cases he : t.isEmpty = true
  · rw [if_pos he]
    exact ⟨fun k hkm => absurd hkm (List.not_mem_nil k), fun _ => List.nodup_nil⟩
  · rw [if_neg he]
    exact ⟨fun k hkm => (List.mem_filter.mp hkm).1, fun hn => hn.filter _⟩

/-- Witness for C10 at a concrete input. -/
theorem claim_C10_witness :
    (∀ k ∈ (find_keywords_in_text (str "A digital app study")
        [str "app", str "digital"]).1, k ∈ [str "app", str "digital"]) ∧
    (find_keywords_in_text (str "A digital app study")
        [str "app", str "digital"]).1.Nodup :=
  ⟨(claim_C10_output_from_keyword_list (str "A digital app study")
      [str "app", str "digital"]).1,
   (claim_C10_output_from_keyword_list (str "A digital app study")
      [str "app", str "digital"]).2 (by decide)⟩

/-! ## Claim C2 -/

/-- C2: `evaluate_single_paper` matches against the concatenation of
title, a single space, and abstract, and returns `include` iff all three
category matched-term lists are non-empty, and `exclude` otherwise. -/
theorem claim_C2_evaluate_include_iff (title abstract : List Char) :
    ((evaluate_single_paper title abstract).result = str "include" ↔
      ((find_keywords_in_text (title ++ ' ' :: abstract) depression_keywords).1 ≠ [] ∧
       (find_keywords_in_text (title ++ ' ' :: abstract) mobile_keywords).1 ≠ [] ∧
       (find_behavioral_keywords_in_text (title ++ ' ' :: abstract)).1 ≠ [])) ∧
    ((evaluate_single_paper title abstract).result = str "include" ∨
     (evaluate_single_paper title abstract).result = str "exclude") := by
  have hres : (evaluate_single_paper title abstract).result =
      (if !(find_keywords_in_text (title ++ ' ' :: abstract) depression_keywords).1.isEmpty &&
          !(find_keywords_in_text (title ++ ' ' :: abstract) mobile_keywords).1.isEmpty &&
          !(find_behavioral_keywords_in_text (title ++ ' ' :: abstract)).1.isEmpty then
        str "include"
      else str "exclude") := rfl
  have hne : str "include" ≠ str "exclude" := by decide
  rw [hres]
  by_cases hb : (!(find_keywords_in_text (title ++ ' ' :: abstract) depression_keywords).1.isEmpty &&
      !(find_keywords_in_text (title ++ ' ' :: abstract) mobile_keywords).1.isEmpty &&
      !(find_behavioral_keywords_in_text (title ++ ' ' :: abstract)).1.isEmpty) = true
  · rw [if_pos hb]
    simp only [Bool.and_eq_true, Bool.not_eq_true', List.isEmpty_eq_false] at hb
    exact ⟨⟨fun _ => ⟨hb.1.1, hb.1.2, hb.2⟩, fun _ => rfl⟩, Or.inl rfl⟩
  · rw [if_neg hb]
    simp only [Bool.and_eq_true, Bool.not_eq_true', List.isEmpty_eq_false] at hb
    refine ⟨⟨fun h => absurd h.symm hne, ?_⟩, Or.inr rfl⟩
    rintro ⟨h1, h2, h3⟩
    exact absurd ⟨⟨h1, h2⟩, h3⟩ hb

/-! ## Claim C9 -/

theorem updateAt_length (f : ReviewRow → ReviewRow) :
    ∀ (i : Nat) (l : List ReviewRow), (updateAt f i l).length = l.length := by
  intro i
  induction i with
  | zero =>
    intro l
    cases l with
    | nil => rfl
    | cons r rs => rfl
  | succ i ih =>
    intro l
    cases l with
    | nil => rfl
    | cons r rs => simpa [updateAt] using ih rs

theorem updateAt_get_eq (f : ReviewRow → ReviewRow) :
    ∀ (i : Nat) (l : List ReviewRow),
      (updateAt f i l).get? i = (l.get? i).map f := by
  intro i
  induction i with
  | zero =>
    intro l
    cases l with
    | nil => rfl
    | cons r rs => rfl
  | succ i ih =>
    intro l
    cases l with
    | nil => rfl
    | cons r rs => simpa [updateAt] using ih rs

theorem updateAt_get_ne (f : ReviewRow → ReviewRow) :
    ∀ (i : Nat) (l : List ReviewRow) (j : Nat), j ≠ i →
      (updateAt f i l).get? j = l.get? j := by
  intro i
  induction i with
  | zero =>
    intro l j hj
    cases l with
    | nil => rfl
    | cons r rs =>
      cases j with
      | zero => exact absurd rfl hj
      | succ j => rfl
  | succ i ih =>
    intro l j hj
    cases l with
    | nil => rfl
    | cons r rs =>
      cases j with
      | zero => rfl
      | succ j => simpa [updateAt] using ih rs j (by omega)

/-- C9: the reset operation clears all human fields to empty (the three
human keyword fields and the human result become empty, the review date
is cleared), sets the review status back to "not reviewed" (`미완료`),
and leaves everything else unchanged: no rule-stage or LLM-stage field of
the record, no identity field, no other record, and not the
current-record cursor. -/
theorem claim_C9_reset_frame (st : SessionState)
    (h : st.current_idx < st.df.length) :
    (resetCurrent st).current_idx = st.current_idx ∧
    (∃ r, st.df.get? st.current_idx = some r ∧
      (resetCurrent st).df.get? st.current_idx = some (resetRow r) ∧
      (resetRow r).human_depression_keywords = [] ∧
      (resetRow r).human_mobile_keywords = [] ∧
      (resetRow r).human_behavioral_keywords = [] ∧
      (resetRow r).human_result = [] ∧
      (resetRow r).review_status = str "미완료" ∧
      (resetRow r).review_date = none ∧
      (resetRow r).doi = r.doi ∧
      (resetRow r).title = r.title ∧
      (resetRow r).abstract = r.abstract ∧
      (resetRow r).depression_keywords = r.depression_keywords ∧
      (resetRow r).mobile_keywords = r.mobile_keywords ∧
      (resetRow r).behavioral_keywords = r.behavioral_keywords ∧
      (resetRow r).result = r.result ∧
      (resetRow r).rule_result = r.rule_result ∧
      (resetRow r).llm_result = r.llm_result ∧
      (resetRow r).llm_reason = r.llm_reason ∧
      (resetRow r).final_result = r.final_result ∧
      (resetRow r).reviewer_name = r.reviewer_name) ∧
    (∀ j, j ≠ st.current_idx → (resetCurrent st).df.get? j = st.df.get? j) ∧
    (resetCurrent st).df.length = st.df.length := by
  refine ⟨rfl, ?_, ?_, ?_⟩
  · cases hr : st.df.get? st.current_idx with
    | none =>
      rw [List.get?_eq_none] at hr
      omega
    | some r =>
      refine ⟨r, rfl, ?_, rfl, rfl, rfl, rfl, rfl, rfl, rfl, rfl, rfl, rfl,
        rfl, rfl, rfl, rfl, rfl, rfl, rfl, rfl⟩
      show (updateAt resetRow st.current_idx st.df).get? st.current_idx = _
      rw [updateAt_get_eq, hr]
      rfl
  · intro j hj
    exact updateAt_get_ne resetRow st.current_idx st.df j hj
  · exact updateAt_length resetRow st.current_idx st.df

/-- Witness for C9 at a concrete one-row state. -/
theorem claim_C9_witness :
    (resetCurrent sampleSessionState).current_idx =
      sampleSessionState.current_idx ∧
    (∀ j, j ≠ sampleSessionState.current_idx →
      (resetCurrent sampleSessionState).df.get? j =
        sampleSessionState.df.get? j) ∧
    (resetCurrent sampleSessionState).df.length =
      sampleSessionState.df.length :=
  ⟨(claim_C9_reset_frame sampleSessionState (by decide)).1,
   (claim_C9_reset_frame sampleSessionState (by decide)).2.2.1,
   (claim_C9_reset_frame sampleSessionState (by decide)).2.2.2⟩

/-! ## Claims C7 and C8 -/

theorem processExcludedRow_rule_result
    (attempts : InputRow → Option LLMKeywordResult × Option LLMKeywordResult)
    (r : InputRow) :
    (processExcludedRow attempts r).rule_result = str "exclude" := by
  unfold processExcludedRow
  by_cases h : (isMissingField r.title || isMissingField r.abstract) = true
  · rw [if_pos h]
  · rw [if_neg h]
    cases process_single_article (attempts r).1 (attempts r).2 with
    | some res => rfl
    | none => rfl

theorem processExcludedRow_final_eq_llm
    (attempts : InputRow → Option LLMKeywordResult × Option LLMKeywordResult)
    (r : InputRow) :
    (processExcludedRow attempts r).final_result =
      (processExcludedRow attempts r).llm_result := by
  unfold processExcludedRow
  by_cases h : (isMissingField r.title || isMissingField r.abstract) = true
  · rw [if_pos h]
  · rw [if_neg h]
    cases process_single_article (attempts r).1 (attempts r).2 with
    | some res => rfl
    | none => rfl

/-- C7: when at least one record is rule-excluded (otherwise
`process_exclude_papers` returns its input unchanged, without LLM
columns), the final verdicts are monotone over the rule verdicts: every
rule-included record is passed through with its fields preserved,
`llm_result = not_processed` and `final_result = include`; every
rule-excluded record gets `final_result` equal to its `llm_result`; hence
the final include count is at least the rule include count and the rescue
count is at most the number of rule-excluded records. -/
theorem claim_C7_reconciler_monotone
    (attempts : InputRow → Option LLMKeywordResult × Option LLMKeywordResult)
    (df : List InputRow)
    (h : df.filter (fun r => r.result == str "exclude") ≠ []) :
    ∃ out, process_exclude_papers attempts df = Sum.inr out ∧
      (∀ r ∈ df, r.result = str "include" →
        includeRowOut r ∈ out ∧
        (includeRowOut r).llm_result = str "not_processed" ∧
        (includeRowOut r).final_result = str "include" ∧
        (includeRowOut r).rule_result = r.result ∧
        (includeRowOut r).title = r.title ∧
        (includeRowOut r).abstract = r.abstract ∧
        (includeRowOut r).doi = r.doi ∧
        (includeRowOut r).rule_depression_keywords = r.depression_keywords ∧
        (includeRowOut r).rule_mobile_keywords = r.mobile_keywords ∧
        (includeRowOut r).rule_behavioral_keywords = r.behavioral_keywords) ∧
      (∀ o ∈ out, o.rule_result = str "exclude" →
        o.final_result = o.llm_result) ∧
      (df.filter (fun r => r.result == str "include")).length ≤
        out.countP (fun o => o.final_result == str "include") ∧
      out.countP (fun o =>
          o.rule_result == str "exclude" && o.final_result == str "include") ≤
        (df.filter (fun r => r.result == str "exclude")).length := by
  have hne : ¬ (df.filter (fun r => r.result == str "exclude")).isEmpty = true := by
    rw [List.isEmpty_iff]
    exact h
  refine ⟨(df.filter (fun r => r.result == str "include")).map includeRowOut ++
    (df.filter (fun r => r.result == str "exclude")).map (processExcludedRow attempts),
    ?_, ?_, ?_, ?_, ?_⟩
  · unfold process_exclude_papers
    rw [if_neg hne]
  · intro r hr hinc
    refine ⟨?_, rfl, rfl, rfl, rfl, rfl, rfl, rfl, rfl, rfl⟩
    apply List.mem_append_left
    exact List.mem_map_of_mem includeRowOut
      (List.mem_filter.mpr ⟨hr, by rw [beq_iff_eq]; exact hinc⟩)
  · intro o ho hoexc
    rcases List.mem_append.mp ho with hleft | hright
    · obtain ⟨r, hrf, hro⟩ := List.mem_map.mp hleft
      have hrinc : r.result = str "include" := by
        have hb := (List.mem_filter.mp hrf).2
        rwa [beq_iff_eq] at hb
      have hor : o.rule_result = r.result := by
        rw [← hro]
        rfl
      rw [hor, hrinc] at hoexc
      exact absurd hoexc (by decide)
    · obtain ⟨r, hrf, hro⟩ := List.mem_map.mp hright
      rw [← hro]
      exact processExcludedRow_final_eq_llm attempts r
  · rw [List.countP_append]
    have hleft : ((df.filter (fun r => r.result == str "include")).map
        includeRowOut).countP (fun o => o.final_result == str "include") =
        (df.filter (fun r => r.result == str "include")).length := by
      rw [List.countP_map]
      apply List.countP_eq_length.mpr
      intro r _
      rfl
    omega
  · rw [List.countP_append]
    have hleft : ((df.filter (fun r => r.result == str "include")).map
        includeRowOut).countP (fun o =>
          o.rule_result == str "exclude" && o.final_result == str "include") = 0 := by
      rw [List.countP_map]
      apply List.countP_eq_zero.mpr
      intro r hrf hcontra
      have hrinc : r.result = str "include" := by
        have hb := (List.mem_filter.mp hrf).2
        rwa [beq_iff_eq] at hb
      have hc2 : ((includeRowOut r).rule_result == str "exclude" &&
          (includeRowOut r).final_result == str "include") = true := hcontra
      rw [Bool.and_eq_true] at hc2
      have hc3 : (includeRowOut r).rule_result = str "exclude" := by
        have hb := hc2.1
        rwa [beq_iff_eq] at hb
      have hc4 : r.result = str "exclude" := hc3
      rw [hrinc] at hc4
      exact absurd hc4 (by decide)
    have hright : ((df.filter (fun r => r.result == str "exclude")).map
        (processExcludedRow attempts)).countP (fun o =>
          o.rule_result == str "exclude" && o.final_result == str "include") ≤
        (df.filter (fun r => r.result == str "exclude")).length := by
      calc ((df.filter (fun r => r.result == str "exclude")).map
          (processExcludedRow attempts)).countP _ ≤
          ((df.filter (fun r => r.result == str "exclude")).map
            (processExcludedRow attempts)).length := List.countP_le_length _
        _ = (df.filter (fun r => r.result == str "exclude")).length :=
          List.length_map _ _
    omega

/-- Witness for C7 at a concrete two-row frame with a failing LLM. -/
theorem claim_C7_witness :
    ∃ out, process_exclude_papers failingAttempts
        [sampleIncludeRow, sampleExcludeRow] = Sum.inr out ∧
      ([sampleIncludeRow, sampleExcludeRow].filter
          (fun r => r.result == str "include")).length ≤
        out.countP (fun o => o.final_result == str "include") := by
  obtain ⟨out, hout, -, -, hcount, -⟩ :=
    claim_C7_reconciler_monotone failingAttempts
      [sampleIncludeRow, sampleExcludeRow] (by decide)
  exact ⟨out, hout, hcount⟩

/-- C8: a rule-excluded record whose LLM call fails in both the
structured parse and the raw-text fallback parse gets
`llm_result = exclude`, a non-empty failure `llm_reason`,
`final_result = exclude`, and the batch continues: the output still
contains one row per include and per exclude record. -/
theorem claim_C8_llm_failure_fallback
    (attempts : InputRow → Option LLMKeywordResult × Option LLMKeywordResult)
    (df : List InputRow) (r : InputRow)
    (hr : r ∈ df) (hexc : r.result = str "exclude")
    (hm1 : isMissingField r.title = false)
    (hm2 : isMissingField r.abstract = false)
    (hfail : attempts r = (none, none)) :
    process_single_article (attempts r).1 (attempts r).2 = none ∧
    (processExcludedRow attempts r).llm_result = str "exclude" ∧
    (processExcludedRow attempts r).llm_reason = str "LLM 처리 실패" ∧
    (processExcludedRow attempts r).llm_reason ≠ [] ∧
    (processExcludedRow attempts r).final_result = str "exclude" ∧
    ∃ out, process_exclude_papers attempts df = Sum.inr out ∧
      processExcludedRow attempts r ∈ out ∧
      out.length = (df.filter (fun x => x.result == str "include")).length +
        (df.filter (fun x => x.result == str "exclude")).length := by
  have hrowfail : processExcludedRow attempts r =
      { doi := r.doi, title := r.title, authors := r.authors
        journal := r.journal, year := r.year, abstract := r.abstract
        rule_depression_keywords := r.depression_keywords
        rule_mobile_keywords := r.mobile_keywords
        rule_behavioral_keywords := r.behavioral_keywords
        rule_result := str "exclude"
        llm_depression_keywords := [], llm_mobile_keywords := []
        llm_behavioral_keywords := [], llm_result := str "exclude"
        llm_depression_highlight := [], llm_mobile_highlight := []
        llm_behavioral_highlight := []
        llm_reason := str "LLM 처리 실패"
        final_result := str "exclude" } := by
    unfold processExcludedRow
    rw [hm1, hm2, hfail]
    rfl
  have hmemf : r ∈ df.filter (fun x => x.result == str "exclude") :=
    List.mem_filter.mpr ⟨hr, by rw [beq_iff_eq]; exact hexc⟩
  have hne : ¬ (df.filter (fun x => x.result == str "exclude")).isEmpty = true := by
    rw [List.isEmpty_iff]
    exact List.ne_nil_of_mem hmemf
  refine ⟨by rw [hfail]; rfl, by rw [hrowfail], by rw [hrowfail],
    ?_, by rw [hrowfail], ?_⟩
  · rw [hrowfail]
    show (str "LLM 처리 실패" : List Char) ≠ []
    decide
  refine ⟨(df.filter (fun x => x.result == str "include")).map includeRowOut ++
    (df.filter (fun x => x.result == str "exclude")).map (processExcludedRow attempts),
    ?_, ?_, ?_⟩
  · unfold process_exclude_papers
    rw [if_neg hne]
  · exact List.mem_append_right _
      (List.mem_map_of_mem (processExcludedRow attempts) hmemf)
  · rw [List.length_append, List.length_map, List.length_map]

/-- Witness for C8 at a concrete failing record. -/
theorem claim_C8_witness :
    (processExcludedRow failingAttempts sampleExcludeRow).llm_result =
      str "exclude" ∧
    (processExcludedRow failingAttempts sampleExcludeRow).llm_reason ≠ [] ∧
    (processExcludedRow failingAttempts sampleExcludeRow).final_result =
      str "exclude" :=
  ⟨(claim_C8_llm_failure_fallback failingAttempts
      [sampleIncludeRow, sampleExcludeRow] sampleExcludeRow
      (by decide) (by decide) (by decide) (by decide) rfl).2.1,
   (claim_C8_llm_failure_fallback failingAttempts
      [sampleIncludeRow, sampleExcludeRow] sampleExcludeRow
      (by decide) (by decide) (by decide) (by decide) rfl).2.2.2.1,
   (claim_C8_llm_failure_fallback failingAttempts
      [sampleIncludeRow, sampleExcludeRow] sampleExcludeRow
      (by decide) (by decide) (by decide) (by decide) rfl).2.2.2.2.1⟩

/-- Counterexample to C7 as stated: on a record set with no rule-excluded
rows, `process_exclude_papers` returns the input frame unchanged (left
injection), so its rule-included record is not passed through with
`llm_result = not_processed` and no `final_result` exists. -/
theorem claim_C7_counterexample :
    process_exclude_papers failingAttempts [sampleIncludeRow] =
      Sum.inl [sampleIncludeRow] := by decide

/-! ## Claim C3 -/

theorem reMatch_bdry_cons (t : List Char) (rest : List RTok) (i : Nat) :
    reMatch t (RTok.bdry :: rest) i =
      if boundaryAt t i then reMatch t rest i else none := rfl

theorem reMatch_lit_cons (t : List Char) (c : Char) (rest : List RTok) (i : Nat) :
    reMatch t (RTok.lit c :: rest) i =
      match t.get? i with
      | some d => if charEqCI c d then reMatch t rest (i + 1) else none
      | none => none := rfl

theorem reMatch_splus_cons (t : List Char) (rest : List RTok) (i : Nat) :
    reMatch t (RTok.splus :: rest) i =
      match runFrom isPySpace t i with
      | 0 => none
      | k + 1 => tryStar (fun j => reMatch t rest j) (i + 1) k := rfl

theorem litScan_cons {t : List Char} {c : Char} {cs : List Char} {i q : Nat}
    (h : litScan t (c :: cs) i = some q) :
    ∃ d, t.get? i = some d ∧ charEqCI c d = true ∧
      litScan t cs (i + 1) = some q := by
  unfold litScan at h
  cases hg : t.get? i with
  | none =>
    rw [hg] at h
    exact Option.noConfusion h
  | some d =>
    rw [hg] at h
    have h' : (if charEqCI c d = true then litScan t cs (i + 1) else none) =
      some q := h
    by_cases he : charEqCI c d = true
    · rw [if_pos he] at h'
      exact ⟨d, rfl, he, h'⟩
    · rw [if_neg he] at h'
      exact Option.noConfusion h'

theorem wildcardTailEquiv (t : List Char) (P : List RTok) (c : Char)
    (hc : isWordChar c = true) (i : Nat) :
    reMatch t (P ++ RTok.lit c :: [RTok.wstar]) i =
      reMatch t (P ++ RTok.lit c :: [RTok.wstar, RTok.bdry]) i :=
  reMatch_tailCong t [RTok.wstar] [RTok.wstar, RTok.bdry]
    (fun j hj hw => (reMatch_wstar_bdry t j hj hw).symm) c hc P i

theorem patternEquiv_interven (t : List Char) (i : Nat) :
    reMatch t (parseRegex (str "\\bbehavio\\w*\\s+interven\\w*")) i =
      reMatch t (keywordPattern true (str "behavio* interven*")) i := by
  have hA : parseRegex (str "\\bbehavio\\w*\\s+interven\\w*") =
      [RTok.bdry, RTok.lit 'b', RTok.lit 'e', RTok.lit 'h', RTok.lit 'a',
       RTok.lit 'v', RTok.lit 'i', RTok.lit 'o', RTok.wstar, RTok.splus,
       RTok.lit 'i', RTok.lit 'n', RTok.lit 't', RTok.lit 'e', RTok.lit 'r',
       RTok.lit 'v', RTok.lit 'e'] ++ RTok.lit 'n' :: [RTok.wstar] := by decide
  have hB : keywordPattern true (str "behavio* interven*") =
      [RTok.bdry, RTok.lit 'b', RTok.lit 'e', RTok.lit 'h', RTok.lit 'a',
       RTok.lit 'v', RTok.lit 'i', RTok.lit 'o', RTok.wstar, RTok.splus,
       RTok.lit 'i', RTok.lit 'n', RTok.lit 't', RTok.lit 'e', RTok.lit 'r',
       RTok.lit 'v', RTok.lit 'e'] ++ RTok.lit 'n' :: [RTok.wstar, RTok.bdry] := by
    decide
  rw [hA, hB]
  exact wildcardTailEquiv t _ 'n' (by decide) i

theorem patternEquiv_therap (t : List Char) (i : Nat) :
    reMatch t (parseRegex (str "\\bbehavio\\w*\\s+therap\\w*")) i =
      reMatch t (keywordPattern true (str "behavio* therap*")) i := by
  have hA : parseRegex (str "\\bbehavio\\w*\\s+therap\\w*") =
      [RTok.bdry, RTok.lit 'b', RTok.lit 'e', RTok.lit 'h', RTok.lit 'a',
       RTok.lit 'v', RTok.lit 'i', RTok.lit 'o', RTok.wstar, RTok.splus,
       RTok.lit 't', RTok.lit 'h', RTok.lit 'e', RTok.lit 'r', RTok.lit 'a'] ++
      RTok.lit 'p' :: [RTok.wstar] := by decide
  have hB : keywordPattern true (str "behavio* therap*") =
      [RTok.bdry, RTok.lit 'b', RTok.lit 'e', RTok.lit 'h', RTok.lit 'a',
       RTok.lit 'v', RTok.lit 'i', RTok.lit 'o', RTok.wstar, RTok.splus,
       RTok.lit 't', RTok.lit 'h', RTok.lit 'e', RTok.lit 'r', RTok.lit 'a'] ++
      RTok.lit 'p' :: [RTok.wstar, RTok.bdry] := by decide
  rw [hA, hB]
  exact wildcardTailEquiv t _ 'p' (by decide) i

theorem finditerAux_congr {t : List Char} {p q : List RTok}
    (h : ∀ i, reMatch t p i = reMatch t q i) :
    ∀ (fuel pos : Nat), finditerAux t p fuel pos = finditerAux t q fuel pos := by
  intro fuel
  induction fuel with
  | zero => intro pos; rfl
  | succ fuel ih =>
    intro pos
    unfold finditerAux
    by_cases hp : t.length < pos
    · rw [if_pos hp, if_pos hp]
    · rw [if_neg hp, if_neg hp, h pos]
      simp only [ih]

theorem reFinditer_congr {t : List Char} {p q : List RTok}
    (h : ∀ i, reMatch t p i = reMatch t q i) :
    reFinditer t p = reFinditer t q :=
  finditerAux_congr h (t.length + 1) 0

theorem patternIncl_activity (t : List Char) (i j : Nat)
    (h : reMatch t (parseRegex (str "\\bactivity schedul\\w*")) i = some j) :
    reMatch t (keywordPattern true (str "activity schedul*")) i = some j := by
  have hA : parseRegex (str "\\bactivity schedul\\w*") =
      RTok.bdry :: ((str "activity").map RTok.lit ++
        RTok.lit ' ' :: ((str "schedul").map RTok.lit ++ [RTok.wstar])) := by decide
  have hB : keywordPattern true (str "activity schedul*") =
      RTok.bdry :: ((str "activity").map RTok.lit ++
        RTok.splus :: ((str "schedul").map RTok.lit ++ [RTok.wstar, RTok.bdry])) := by
    decide
  rw [hA] at h
  rw [hB, reMatch_bdry_cons]
  rw [reMatch_bdry_cons] at h
  by_cases hbd : boundaryAt t i = true
  · rw [if_pos hbd] at h
    rw [if_pos hbd]
    rw [reMatch_lits_append] at h
    rw [reMatch_lits_append]
    cases hsc : litScan t (str "activity") i with
    | none =>
      rw [hsc] at h
      exact Option.noConfusion h
    | some p =>
      rw [hsc] at h
      have h1 : reMatch t (RTok.lit ' ' ::
          ((str "schedul").map RTok.lit ++ [RTok.wstar])) p = some j := h
      rw [reMatch_lit_cons] at h1
      cases hg : t.get? p with
      | none =>
        rw [hg] at h1
        exact Option.noConfusion h1
      | some d =>
        rw [hg] at h1
        have h2 : (if charEqCI ' ' d = true then
            reMatch t ((str "schedul").map RTok.lit ++ [RTok.wstar]) (p + 1)
          else none) = some j := h1
        by_cases hsp : charEqCI ' ' d = true
        · rw [if_pos hsp] at h2
          have hdspace : isPySpace d = true := by
            rw [isPySpace_of_charEqCI hsp]
            decide
          have h3 := h2
          rw [reMatch_lits_append] at h3
          cases hsc2 : litScan t (str "schedul") (p + 1) with
          | none =>
            rw [hsc2] at h3
            exact Option.noConfusion h3
          | some q =>
            obtain ⟨d2, hg2, hcs, -⟩ := litScan_cons hsc2
            have hd2 : isPySpace d2 = false := by
              rw [isPySpace_of_charEqCI hcs]
              decide
            have hrun : runFrom isPySpace t p = 1 :=
              runLen_one hg hdspace hg2 hd2
            show reMatch t (RTok.splus ::
              ((str "schedul").map RTok.lit ++ [RTok.wstar, RTok.bdry])) p = some j
            rw [reMatch_splus_cons, hrun]
            show reMatch t
              ((str "schedul").map RTok.lit ++ [RTok.wstar, RTok.bdry]) (p + 1) =
                some j
            have hlits : (str "schedul").map RTok.lit ++ [RTok.wstar, RTok.bdry] =
                (str "schedu").map RTok.lit ++
                  RTok.lit 'l' :: [RTok.wstar, RTok.bdry] := by decide
            have hlits2 : (str "schedul").map RTok.lit ++ [RTok.wstar] =
                (str "schedu").map RTok.lit ++ RTok.lit 'l' :: [RTok.wstar] := by
              decide
            rw [hlits]
            rw [hlits2] at h2
            rw [← wildcardTailEquiv t _ 'l' (by decide) (p + 1)]
            exact h2
        · rw [if_neg hsp] at h2
          exact Option.noConfusion h2
  · rw [if_neg hbd] at h
    exact Option.noConfusion h

/-- C3 (amended): for the second and third wildcard templates
("behavio* interven*", "behavio* therap*") the behavioral matcher's
compiled pattern and the highlighter's `convert_wildcard_to_regex`
expansion define exactly the same matching relation on every text (the
same anchored-match results at every position and the same `finditer`
matches); for the first template ("activity schedul*") every match of the
behavioral pattern (which requires a single literal space) is also a
match of the highlighter pattern with the same extent, but not
conversely. -/
theorem claim_C3_wildcard_pattern_equivalence (t : List Char) :
    ((∀ i, reMatch t (parseRegex (str "\\bbehavio\\w*\\s+interven\\w*")) i =
        reMatch t (keywordPattern true (str "behavio* interven*")) i) ∧
      reFinditer t (parseRegex (str "\\bbehavio\\w*\\s+interven\\w*")) =
        reFinditer t (keywordPattern true (str "behavio* interven*"))) ∧
    ((∀ i, reMatch t (parseRegex (str "\\bbehavio\\w*\\s+therap\\w*")) i =
        reMatch t (keywordPattern true (str "behavio* therap*")) i) ∧
      reFinditer t (parseRegex (str "\\bbehavio\\w*\\s+therap\\w*")) =
        reFinditer t (keywordPattern true (str "behavio* therap*"))) ∧
    (∀ i j, reMatch t (parseRegex (str "\\bactivity schedul\\w*")) i = some j →
      reMatch t (keywordPattern true (str "activity schedul*")) i = some j) ∧
    (str "\\bbehavio\\w*\\s+interven\\w*" ∈ behavioral_patterns ∧
     str "\\bbehavio\\w*\\s+therap\\w*" ∈ behavioral_patterns ∧
     str "\\bactivity schedul\\w*" ∈ behavioral_patterns) :=
  ⟨⟨patternEquiv_interven t, reFinditer_congr (patternEquiv_interven t)⟩,
   ⟨patternEquiv_therap t, reFinditer_congr (patternEquiv_therap t)⟩,
   patternIncl_activity t,
   by decide, by decide, by decide⟩

/-- Witness for C3 at a concrete input: on "activity scheduling" the
behavioral pattern matches at 0 with extent 19, and so does the
highlighter pattern. -/
theorem claim_C3_witness :
    reMatch (str "activity scheduling")
      (keywordPattern true (str "activity schedul*")) 0 = some 19 :=
  (claim_C3_wildcard_pattern_equivalence (str "activity scheduling")).2.2.1
    0 19 (by decide)

/-- Counterexample to C3 as stated: on "activity  schedule" (two spaces)
the behavioral matcher's first compiled pattern finds no match, while the
highlighter's wildcard expansion of "activity schedul*" matches the whole
text — the two implementations do not accept the same substrings. -/
theorem claim_C3_counterexample :
    str "\\bactivity schedul\\w*" ∈ behavioral_patterns ∧
    reFinditer (str "activity  schedule")
      (parseRegex (str "\\bactivity schedul\\w*")) = [] ∧
    reFinditer (str "activity  schedule")
      (keywordPattern true (str "activity schedul*")) = [(0, 18)] := by
  refine ⟨by decide, by decide, by decide⟩

/-! ## Claim C4 -/

theorem not_mem_of_contains_eq_false {l : List (List Char)} {a : List Char}
    (h : l.contains a = false) : a ∉ l := by
  intro hmem
  rw [List.contains_eq_any_beq] at h
  have h2 : (l.any fun x => a == x) = true :=
    List.any_eq_true.mpr ⟨a, hmem, by simp⟩
  rw [h2] at h
  cases h

theorem pySlice_lowerStr_fixed (text : List Char) (s e : Nat) :
    lowerStr (pySlice (lowerStr text) s e) = pySlice (lowerStr text) s e := by
  unfold pySlice lowerStr
  rw [← List.map_drop, ← List.map_take, List.map_map]
  apply List.map_congr_left
  intro c _
  exact pyToLower_idem c

theorem behavioralWildcardLoop_mem (tl : List Char) (ss : List (List Char)) :
    ∀ (ms : List (Nat × Nat)) (acc : List (List Char) × List (List Char))
      (x : List Char), x ∈ (behavioralWildcardLoop tl ss ms acc).1 →
      x ∈ acc.1 ∨ ∃ m ∈ ms, x = pySlice tl m.1 m.2 := by
  intro ms
  induction ms with
  | nil =>
    intro acc x hx
    exact Or.inl hx
  | cons m ms ih =>
    intro acc x hx
    unfold behavioralWildcardLoop at hx
    by_cases hc : ((acc.1.map lowerStr).contains (pySlice tl m.1 m.2)) = true
    · rw [if_pos hc] at hx
      rcases ih acc x hx with h | ⟨m', hm', he⟩
      · exact Or.inl h
      · exact Or.inr ⟨m', List.mem_cons_of_mem m hm', he⟩
    · rw [if_neg hc] at hx
      rcases ih _ x hx with h | ⟨m', hm', he⟩
      · rcases List.mem_append.mp h with h2 | h2
        · exact Or.inl h2
        · rcases List.mem_singleton.mp h2 with rfl
          exact Or.inr ⟨m, List.mem_cons_self m ms, rfl⟩
      · exact Or.inr ⟨m', List.mem_cons_of_mem m hm', he⟩

theorem behavioralPatternLoop_mem (tl : List Char) (ss : List (List Char)) :
    ∀ (pats : List (List Char)) (acc : List (List Char) × List (List Char))
      (x : List Char), x ∈ (behavioralPatternLoop tl ss pats acc).1 →
      x ∈ acc.1 ∨ ∃ pat ∈ pats, ∃ m ∈ reFinditer tl (parseRegex pat),
        x = pySlice tl m.1 m.2 := by
  intro pats
  induction pats with
  | nil =>
    intro acc x hx
    exact Or.inl hx
  | cons pat pats ih =>
    intro acc x hx
    unfold behavioralPatternLoop at hx
    rcases ih _ x hx with h | ⟨pat', hp', m, hm, he⟩
    · rcases behavioralWildcardLoop_mem tl ss _ acc x h with h2 | ⟨m, hm, he⟩
      · exact Or.inl h2
      · exact Or.inr ⟨pat, List.mem_cons_self pat pats, m, hm, he⟩
    · exact Or.inr ⟨pat', List.mem_cons_of_mem pat hp', m, hm, he⟩

theorem behavioralWildcardLoop_nodup (tl : List Char) (ss : List (List Char))
    (hfix : ∀ s e, lowerStr (pySlice tl s e) = pySlice tl s e) :
    ∀ (ms : List (Nat × Nat)) (acc : List (List Char) × List (List Char)),
      (acc.1.map lowerStr).Nodup →
      ((behavioralWildcardLoop tl ss ms acc).1.map lowerStr).Nodup := by
  intro ms
  induction ms with
  | nil =>
    intro acc hacc
    exact hacc
  | cons m ms ih =>
    intro acc hacc
    unfold behavioralWildcardLoop
    by_cases hc : ((acc.1.map lowerStr).contains (pySlice tl m.1 m.2)) = true
    · rw [if_pos hc]
      exact ih acc hacc
    · rw [if_neg hc]
      apply ih
      show ((acc.1 ++ [pySlice tl m.1 m.2]).map lowerStr).Nodup
      rw [List.map_append]
      rw [List.nodup_append]
      refine ⟨hacc, by simp, ?_⟩
      intro a ha hb
      have hb2 : a = lowerStr (pySlice tl m.1 m.2) := by
        simpa using hb
      rw [hfix] at hb2
      subst hb2
      exact not_mem_of_contains_eq_false
        (Bool.not_eq_true _ ▸ hc : (acc.1.map lowerStr).contains
          (pySlice tl m.1 m.2) = false) ha

theorem behavioralPatternLoop_nodup (tl : List Char) (ss : List (List Char))
    (hfix : ∀ s e, lowerStr (pySlice tl s e) = pySlice tl s e) :
    ∀ (pats : List (List Char)) (acc : List (List Char) × List (List Char)),
      (acc.1.map lowerStr).Nodup →
      ((behavioralPatternLoop tl ss pats acc).1.map lowerStr).Nodup := by
  intro pats
  induction pats with
  | nil =>
    intro acc hacc
    exact hacc
  | cons pat pats ih =>
    intro acc hacc
    unfold behavioralPatternLoop
    exact ih _ (behavioralWildcardLoop_nodup tl ss hfix _ acc hacc)

/-- C4 (amended): every wildcard-template match reported by
`find_behavioral_keywords_in_text` is recorded as the matched substring
of the lower-cased source text — a case-normalised form, not the
template string (the original casing of the source text is not
preserved) — and deduplication across the literal-phrase matches and the
wildcard matches is by lower-cased matched string: the output never
contains two entries with the same lower-cased form. -/
theorem claim_C4_behavioral_match_recording (text : List Char) :
    ((find_behavioral_keywords_in_text text).1.map lowerStr).Nodup ∧
    (∀ x ∈ (find_behavioral_keywords_in_text text).1,
      x ∈ behavioral_base_keywords ∨
      ∃ pat ∈ behavioral_patterns,
        ∃ m ∈ reFinditer (lowerStr text) (parseRegex pat),
          x = pySlice (lowerStr text) m.1 m.2) := by
  unfold find_behavioral_keywords_in_text
  by_cases he : text.isEmpty = true
  · rw [if_pos he]
    exact ⟨List.nodup_nil, fun x hx => absurd hx (List.not_mem_nil x)⟩
  · rw [if_neg he]
    have hbase : (find_keywords_in_text text behavioral_base_keywords).1.Sublist
        behavioral_base_keywords := by
      rw [find_keywords_fst, if_neg he]
      exact List.filter_sublist _
    constructor
    · apply behavioralPatternLoop_nodup _ _ (pySlice_lowerStr_fixed text)
      apply List.Nodup.sublist (List.Sublist.map lowerStr hbase)
      decide
    · intro x hx
      rcases behavioralPatternLoop_mem _ _ _ _ x hx with h | h
      · exact Or.inl (hbase.mem h)
      · exact Or.inr h

/-- Counterexample to C4 as stated: on the text "Activity Scheduling" the
wildcard match is recorded as the lower-cased substring
"activity scheduling", not as the original-cased substring of the source
text. -/
theorem claim_C4_counterexample :
    (find_behavioral_keywords_in_text (str "Activity Scheduling")).1 =
      [str "activity scheduling"] ∧
    str "Activity Scheduling" ∉
      (find_behavioral_keywords_in_text (str "Activity Scheduling")).1 := by
  refine ⟨by decide, by decide⟩

/-! ## Claim C6 -/

theorem greedyKeepAux_pairwise :
    ∀ (ms acc : List HMatch),
      List.Pairwise (fun a b => overlapB b a = false) acc →
      List.Pairwise (fun a b => overlapB b a = false) (greedyKeepAux acc ms) := by
  intro ms
  induction ms with
  | nil =>
    intro acc hacc
    exact hacc
  | cons m ms ih =>
    intro acc hacc
    unfold greedyKeepAux
    by_cases hov : (acc.any (fun e => overlapB m e)) = true
    · rw [if_pos hov]
      exact ih acc hacc
    · rw [if_neg hov]
      apply ih
      rw [List.pairwise_append]
      refine ⟨hacc, List.pairwise_singleton _ _, ?_⟩
      intro a ha b hb
      rw [List.mem_singleton] at hb
      subst hb
      have hall := List.any_eq_false.mp (Bool.not_eq_true _ ▸ hov) a ha
      exact Bool.not_eq_true _ ▸ hall

/-- C6: the spans that `highlight_all_keywords` actually applies — all
candidate matches sorted by descending start offset and greedily kept
only when sharing no index with an already-kept span — are pairwise
non-overlapping in the original text's coordinate space: no two kept
spans share an index. -/
theorem claim_C6_kept_spans_disjoint (useWordBoundary : Bool)
    (text : List Char) (sel : List (List Char × List (List Char))) :
    List.Pairwise (fun a b => ¬ ∃ k, (a.start ≤ k ∧ k < a.stop) ∧
      (b.start ≤ k ∧ k < b.stop)) (keptMatches useWordBoundary text sel) := by
  have h := greedyKeepAux_pairwise
    (sortByStartDesc (collectAllMatches useWordBoundary text sel)) []
    List.Pairwise.nil
  apply h.imp
  intro a b hab
  rintro ⟨k, ⟨hk1, hk2⟩, ⟨hk3, hk4⟩⟩
  have htrue : overlapB b a = true := by
    simp only [overlapB, Bool.and_eq_true, decide_eq_true_eq]
    omega
  rw [htrue] at hab
  cases hab

/-! ## Claim C5 -/

theorem finditerAux_mem_bound {t : List Char} {ps : List RTok} :
    ∀ (fuel pos : Nat) (m : Nat × Nat), m ∈ finditerAux t ps fuel pos →
      m.1 ≤ m.2 ∧ m.2 ≤ t.length := by
  intro fuel
  induction fuel with
  | zero =>
    intro pos m hm
    exact absurd hm (List.not_mem_nil m)
  | succ fuel ih =>
    intro pos m hm
    unfold finditerAux at hm
    by_cases hp : t.length < pos
    · rw [if_pos hp] at hm
      exact absurd hm (List.not_mem_nil m)
    · rw [if_neg hp] at hm
      cases hr : reMatch t ps pos with
      | some j =>
        rw [hr] at hm
        have hm' : m ∈ (pos, j) :: finditerAux t ps fuel
            (if pos < j then j else pos + 1) := hm
        rcases List.mem_cons.mp hm' with rfl | hm2
        · exact reMatch_bound ps pos j (by omega) hr
        · exact ih _ m hm2
      | none =>
        rw [hr] at hm
        exact ih _ m hm
theorem reFinditer_mem_bound {t : List Char} {ps : List RTok} {m : Nat × Nat}
    (hm : m ∈ reFinditer t ps) : m.1 ≤ m.2 ∧ m.2 ≤ t.length :=
  finditerAux_mem_bound (t.length + 1) 0 m hm

theorem collectAllMatches_spec (useWordBoundary : Bool) (text : List Char)
    (sel : List (List Char × List (List Char))) :
    ∀ m ∈ collectAllMatches useWordBoundary text sel,
      m.start ≤ m.stop ∧ m.stop ≤ text.length ∧
        m.text = pySlice text m.start m.stop := by
  intro m hm
  unfold collectAllMatches at hm
  obtain ⟨ck, -, hm2⟩ := List.mem_flatMap.mp hm
  obtain ⟨kw, -, hm3⟩ := List.mem_flatMap.mp hm2
  obtain ⟨p, hp, hpm⟩ := List.mem_map.mp hm3
  have hb := reFinditer_mem_bound hp
  subst hpm
  exact ⟨hb.1, hb.2, rfl⟩

theorem insertDesc_mem {a m : HMatch} :
    ∀ l : List HMatch, a ∈ insertDesc m l ↔ a = m ∨ a ∈ l := by
  intro l
  induction l with
  | nil => simp [insertDesc]
  | cons x xs ih =>
    unfold insertDesc
    by_cases hx : x.start < m.start
    · rw [if_pos hx]
      simp only [List.mem_cons]
    · rw [if_neg hx]
      simp only [List.mem_cons, ih]
      tauto

theorem insertDesc_pairwise {m : HMatch} :
    ∀ l : List HMatch,
      List.Pairwise (fun a b => b.start ≤ a.start) l →
      List.Pairwise (fun a b => b.start ≤ a.start) (insertDesc m l) := by
  intro l
  induction l with
  | nil =>
    intro _
    exact List.pairwise_singleton _ _
  | cons x xs ih =>
    intro hp
    rw [List.pairwise_cons] at hp
    unfold insertDesc
    by_cases hx : x.start < m.start
    · rw [if_pos hx]
      rw [List.pairwise_cons]
      refine ⟨?_, List.pairwise_cons.mpr hp⟩
      intro b hb
      rcases List.mem_cons.mp hb with rfl | hb2
      · omega
      · have := hp.1 b hb2
        omega
    · rw [if_neg hx]
      rw [List.pairwise_cons]
      refine ⟨?_, ih hp.2⟩
      intro b hb
      rcases insertDesc_mem xs |>.mp hb with rfl | hb2
      · omega
      · exact hp.1 b hb2

theorem sortByStartDesc_mem {a : HMatch} (ms : List HMatch) :
    a ∈ sortByStartDesc ms ↔ a ∈ ms := by
  unfold sortByStartDesc
  suffices h : ∀ (ms acc : List HMatch),
      (a ∈ ms.foldl (fun acc m => insertDesc m acc) acc ↔ a ∈ acc ∨ a ∈ ms) by
    rw [h ms []]
    simp
  intro ms
  induction ms with
  | nil =>
    intro acc
    simp
  | cons m ms ih =>
    intro acc
    rw [List.foldl_cons, ih (insertDesc m acc)]
    rw [insertDesc_mem]
    simp [List.mem_cons]
    tauto

theorem sortByStartDesc_sorted (ms : List HMatch) :
    List.Pairwise (fun a b => b.start ≤ a.start) (sortByStartDesc ms) := by
  unfold sortByStartDesc
  suffices h : ∀ (ms acc : List HMatch),
      List.Pairwise (fun a b => b.start ≤ a.start) acc →
      List.Pairwise (fun a b => b.start ≤ a.start)
        (ms.foldl (fun acc m => insertDesc m acc) acc) by
    exact h ms [] List.Pairwise.nil
  intro ms
  induction ms with
  | nil =>
    intro acc hacc
    exact hacc
  | cons m ms ih =>
    intro acc hacc
    rw [List.foldl_cons]
    exact ih (insertDesc m acc) (insertDesc_pairwise acc hacc)

theorem greedyKeepAux_shape :
    ∀ (ms acc : List HMatch),
      ∃ s, greedyKeepAux acc ms = acc ++ s ∧ s.Sublist ms := by
  intro ms
  induction ms with
  | nil =>
    intro acc
    exact ⟨[], by simp [greedyKeepAux], List.nil_sublist _⟩
  | cons m ms ih =>
    intro acc
    unfold greedyKeepAux
    by_cases hov : (acc.any (fun e => overlapB m e)) = true
    · rw [if_pos hov]
      obtain ⟨s, hs, hsub⟩ := ih acc
      exact ⟨s, hs, hsub.cons m⟩
    · rw [if_neg hov]
      obtain ⟨s, hs, hsub⟩ := ih (acc ++ [m])
      refine ⟨m :: s, ?_, List.cons_sublist_cons.mpr hsub⟩
      rw [hs, List.append_assoc]
      rfl

theorem keptMatches_sublist (useWordBoundary : Bool) (text : List Char)
    (sel : List (List Char × List (List Char))) :
    (keptMatches useWordBoundary text sel).Sublist
      (sortByStartDesc (collectAllMatches useWordBoundary text sel)) := by
  unfold keptMatches
  obtain ⟨s, hs, hsub⟩ :=
    greedyKeepAux_shape (sortByStartDesc (collectAllMatches useWordBoundary text sel)) []
  rw [hs]
  simpa using hsub

theorem keptMatches_spec (useWordBoundary : Bool) (text : List Char)
    (sel : List (List Char × List (List Char))) :
    ∀ m ∈ keptMatches useWordBoundary text sel,
      m.start ≤ m.stop ∧ m.stop ≤ text.length ∧
        m.text = pySlice text m.start m.stop := by
  intro m hm
  apply collectAllMatches_spec useWordBoundary text sel m
  rw [← sortByStartDesc_mem]
  exact (keptMatches_sublist useWordBoundary text sel).subset hm

theorem keptMatches_sorted (useWordBoundary : Bool) (text : List Char)
    (sel : List (List Char × List (List Char))) :
    List.Pairwise (fun a b => b.start ≤ a.start)
      (keptMatches useWordBoundary text sel) :=
  List.Pairwise.sublist (keptMatches_sublist useWordBoundary text sel)
    (sortByStartDesc_sorted _)

theorem keptMatches_compat (useWordBoundary : Bool) (text : List Char)
    (sel : List (List Char × List (List Char))) :
    List.Pairwise (fun a b => overlapB b a = false)
      (keptMatches useWordBoundary text sel) :=
  greedyKeepAux_pairwise _ [] List.Pairwise.nil

theorem keptMatches_chain (useWordBoundary : Bool) (text : List Char)
    (sel : List (List Char × List (List Char)))
    (h : ∀ m ∈ collectAllMatches useWordBoundary text sel, m.start < m.stop) :
    List.Pairwise (fun a b => b.stop ≤ a.start)
      (keptMatches useWordBoundary text sel) := by
  have hcomb := (keptMatches_sorted useWordBoundary text sel).and
    (keptMatches_compat useWordBoundary text sel)
  apply List.Pairwise.imp_of_mem ?_ hcomb
  intro a b ha hb hr
  have hane : a.start < a.stop := by
    apply h
    rw [← sortByStartDesc_mem]
    exact (keptMatches_sublist useWordBoundary text sel).subset ha
  have h2 : ¬ (b.start < a.stop ∧ a.start < b.stop) := by
    rintro ⟨x1, x2⟩
    have htrue : overlapB b a = true := by
      simp only [overlapB, Bool.and_eq_true, decide_eq_true_eq]
      exact ⟨x1, x2⟩
    rw [htrue] at hr
    exact Bool.noConfusion hr.2
  have h1 : b.start ≤ a.start := hr.1
  omega

theorem applyOne_split {x v : List Char} {b : HMatch}
    (h1 : b.start ≤ x.length) (h2 : b.stop ≤ x.length) :
    applyOne (x ++ v) b = applyOne x b ++ v := by
  unfold applyOne
  rw [List.take_append_of_le_length h1, List.drop_append_of_le_length h2]
  simp [List.append_assoc]

theorem applyOne_length_ge {x : List Char} {b : HMatch}
    (h : b.start ≤ x.length) : b.start ≤ (applyOne x b).length := by
  unfold applyOne
  simp only [List.length_append, List.length_take]
  omega

theorem foldl_applyOne_append :
    ∀ (ms : List HMatch) (x v : List Char),
      List.Pairwise (fun a b => b.stop ≤ a.start) ms →
      (∀ b ∈ ms, b.stop ≤ x.length ∧ b.start ≤ b.stop) →
      List.foldl applyOne (x ++ v) ms = List.foldl applyOne x ms ++ v := by
  intro ms
  induction ms with
  | nil =>
    intro x v _ _
    rfl
  | cons b ms ih =>
    intro x v hp hb
    have hbb := hb b (List.mem_cons_self b ms)
    rw [List.foldl_cons, List.foldl_cons,
      applyOne_split (by omega) (by omega)]
    apply ih (applyOne x b) v (List.pairwise_cons.mp hp).2
    intro b' hb'
    have hrel := (List.pairwise_cons.mp hp).1 b' hb'
    have hb'2 := hb b' (List.mem_cons_of_mem b hb')
    have hlen : b.start ≤ (applyOne x b).length :=
      applyOne_length_ge (by omega)
    exact ⟨by omega, hb'2.2⟩

theorem foldl_applyOne_eq_renderAll :
    ∀ (ms : List HMatch) (t : List Char),
      List.Pairwise (fun a b => b.stop ≤ a.start) ms →
      (∀ m ∈ ms, m.stop ≤ t.length ∧ m.start ≤ m.stop) →
      List.foldl applyOne t ms = renderAll t ms := by
  intro ms
  induction ms with
  | nil =>
    intro t _ _
    rfl
  | cons m ms ih =>
    intro t hp hb
    have hm := hb m (List.mem_cons_self m ms)
    have htake : (t.take m.start).length = m.start := by
      rw [List.length_take]
      omega
    have hbounds : ∀ b ∈ ms, b.stop ≤ (t.take m.start).length ∧ b.start ≤ b.stop := by
      intro b hbm
      have hrel := (List.pairwise_cons.mp hp).1 b hbm
      have := (hb b (List.mem_cons_of_mem m hbm)).2
      rw [htake]
      exact ⟨by omega, this⟩
    rw [List.foldl_cons]
    have happly : applyOne t m = t.take m.start ++
        (str "<span class=\"" ++ m.cls ++ str "\">" ++ m.text ++
          str "</span>" ++ t.drop m.stop) := by
      unfold applyOne
      simp [List.append_assoc]
    rw [happly,
      foldl_applyOne_append ms (t.take m.start) _ (List.pairwise_cons.mp hp).2 hbounds,
      ih (t.take m.start) (List.pairwise_cons.mp hp).2 hbounds]
    have hrender : renderAll t (m :: ms) =
        renderAll (t.take m.start) ms ++ str "<span class=\"" ++ m.cls ++
          str "\">" ++ m.text ++ str "</span>" ++ t.drop m.stop := rfl
    rw [hrender]
    simp [List.append_assoc]

theorem joinL_append (xs ys : List (List Char)) :
    joinL (xs ++ ys) = joinL xs ++ joinL ys := by
  induction xs with
  | nil => rfl
  | cons x xs ih =>
    show x ++ joinL (xs ++ ys) = (x ++ joinL xs) ++ joinL ys
    rw [ih, List.append_assoc]

theorem pySlice_take {t : List Char} {k s e : Nat} (he : e ≤ k) :
    pySlice (t.take k) s e = pySlice t s e := by
  unfold pySlice
  rw [List.drop_take, List.take_take]
  congr 1
  omega

theorem take_pySlice_drop {t : List Char} {s e : Nat} (hs : s ≤ e)
    (_he : e ≤ t.length) :
    t.take s ++ (pySlice t s e ++ t.drop e) = t := by
  unfold pySlice
  have hd : (t.drop s).drop (e - s) = t.drop e := by
    rw [List.drop_drop]
    congr 1
    omega
  conv_rhs => rw [← List.take_append_drop s t]
  congr 1
  rw [← hd]
  exact List.take_append_drop (e - s) (t.drop s)

theorem renderAll_pieces :
    ∀ (ms : List HMatch) (t : List Char),
      List.Pairwise (fun a b => b.stop ≤ a.start) ms →
      (∀ m ∈ ms, m.stop ≤ t.length ∧ m.start ≤ m.stop ∧
        m.text = pySlice t m.start m.stop) →
      ∃ ps : List HPiece, renderAll t ms = joinL (ps.map renderPiece) ∧
        joinL (ps.map contentPiece) = t := by
  intro ms
  induction ms with
  | nil =>
    intro t _ _
    exact ⟨[HPiece.plain t], by simp [renderAll, joinL, renderPiece],
      by simp [joinL, contentPiece]⟩
  | cons m ms ih =>
    intro t hp hb
    have hm := hb m (List.mem_cons_self m ms)
    have htake : (t.take m.start).length = m.start := by
      rw [List.length_take]
      omega
    have hsub : ∀ b ∈ ms, b.stop ≤ (t.take m.start).length ∧
        b.start ≤ b.stop ∧ b.text = pySlice (t.take m.start) b.start b.stop := by
      intro b hbm
      have hrel := (List.pairwise_cons.mp hp).1 b hbm
      have hbb := hb b (List.mem_cons_of_mem m hbm)
      rw [htake]
      refine ⟨by omega, hbb.2.1, ?_⟩
      rw [hbb.2.2]
      exact (pySlice_take (by omega)).symm
    obtain ⟨ps', hr', hc'⟩ := ih (t.take m.start) (List.pairwise_cons.mp hp).2 hsub
    refine ⟨ps' ++ [HPiece.tagged m.cls m.text, HPiece.plain (t.drop m.stop)],
      ?_, ?_⟩
    · have hrender : renderAll t (m :: ms) =
          renderAll (t.take m.start) ms ++ str "<span class=\"" ++ m.cls ++
            str "\">" ++ m.text ++ str "</span>" ++ t.drop m.stop := rfl
      rw [hrender, List.map_append, joinL_append, hr']
      simp [joinL, renderPiece, List.append_assoc]
    · rw [List.map_append, joinL_append, hc']
      have hcontent : joinL ([HPiece.tagged m.cls m.text,
          HPiece.plain (t.drop m.stop)].map contentPiece) =
          m.text ++ t.drop m.stop := by
        simp [joinL, contentPiece]
      rw [hcontent, hm.2.2]
      exact take_pySlice_drop hm.2.1 hm.1

/-- C5 (amended): provided every candidate match of the selected keywords
on the text is non-empty (empty-width matches — e.g. from an empty
keyword — can split previously inserted markers and corrupt the output),
the string returned by `highlight_all_keywords` decomposes into plain and
marker-wrapped pieces whose concatenated contents equal the input text
exactly: stripping the inserted span markers recovers the input,
including all whitespace. -/
theorem claim_C5_highlight_round_trip (useWordBoundary : Bool)
    (text : List Char) (sel : List (List Char × List (List Char)))
    (h : ∀ m ∈ collectAllMatches useWordBoundary text sel, m.start < m.stop) :
    ∃ ps : List HPiece,
      highlight_all_keywords useWordBoundary text sel =
        joinL (ps.map renderPiece) ∧
      joinL (ps.map contentPiece) = text := by
  unfold highlight_all_keywords
  by_cases he : text.isEmpty = true
  · rw [if_pos he]
    exact ⟨[HPiece.plain text], by simp [joinL, renderPiece],
      by simp [joinL, contentPiece]⟩
  · rw [if_neg he]
    have hchain := keptMatches_chain useWordBoundary text sel h
    have hspec := keptMatches_spec useWordBoundary text sel
    rw [foldl_applyOne_eq_renderAll _ text hchain
      (fun m hm => ⟨(hspec m hm).2.1, (hspec m hm).1⟩)]
    exact renderAll_pieces _ text hchain
      (fun m hm => ⟨(hspec m hm).2.1, (hspec m hm).1, (hspec m hm).2.2⟩)

set_option maxRecDepth 8192 in
/-- Witness for C5 at a concrete input: a wildcard highlight over a text
whose matches are all non-empty. -/
theorem claim_C5_witness :
    ∃ ps : List HPiece,
      highlight_all_keywords true (str "Behavioral Therapy works")
        [(str "behavioral", [str "behavio* therap*"])] =
        joinL (ps.map renderPiece) ∧
      joinL (ps.map contentPiece) = str "Behavioral Therapy works" :=
  claim_C5_highlight_round_trip true (str "Behavioral Therapy works")
    [(str "behavioral", [str "behavio* therap*"])] (by decide)

set_option maxRecDepth 8192 in
/-- Counterexample to C5 as stated: with an empty keyword selected, a
later empty-width insertion at the same start offset as a non-empty kept
span splits a previously inserted marker, so the returned string no
longer strips back to the input text. -/
theorem claim_C5_counterexample :
    stripMarkers (highlight_all_keywords true (str "a b")
      [(str "x", [[]]), (str "y", [str "a"])]) ≠ str "a b" ∧
    highlight_all_keywords true (str "a b")
      [(str "x", [[]]), (str "y", [str "a"])] =
      str "<span class=\"highlight-y\">a</span>span class=\"highlight-x\"></span>a<span class=\"highlight-x\"></span> <span class=\"highlight-x\"></span>b<span class=\"highlight-x\"></span>" := by
  refine ⟨by decide, by decide⟩
